import Mathlib

/-!
Formal verification of the benedrone motion-planner routing engine.

This file is a shallow embedding of the Go sources of the planner
(geometry.go, astar.go, visibility_graph.go, prm_graph.go, simplify.go)
together with proofs of the specified properties.

Modelling conventions:
* Go float64 coordinate values are modelled exactly as rationals; every
  arithmetic operation performed on them by the code (add, sub, mul, div,
  comparisons) stays inside the rationals, so the comparison-based geometry
  predicates are decidable and executable.
* Values produced by math.Sqrt (distances, perpendicular deviations) are
  modelled as real numbers via Real.sqrt; comparisons on them are classical.
* Go maps are modelled as association lists (first binding wins, mirroring
  unique map keys); a lookup of an absent key yields the Go zero value.
* The random sample stream of the PRM builder is passed in explicitly as a
  list of candidate points; Go's container/heap priority queue is modelled
  as extraction of the first open node of minimal F, which is the contract
  the heap provides through the Less method of astar.go.
* Unbounded Go loops (the A* main loop, recursive Douglas-Peucker) are
  expressed with explicit fuel; the fuel chosen is proved/argued sufficient
  wherever a claim depends on it.
-/

set_option maxHeartbeats 1000000

namespace BeneDrone

/-! ## Geometry kernel (geometry.go) -/

/-- A planar point, fields X and Y of geometry types. -/
structure Point where
  x : ℚ
  y : ℚ
deriving DecidableEq, Repr

instance : Inhabited Point := ⟨⟨0, 0⟩⟩

/-- Point.Distance: Euclidean distance, sqrt(dx*dx + dy*dy). -/
noncomputable def Point.Distance (p other : Point) : ℝ :=
  let dx : ℝ := ((p.x - other.x : ℚ) : ℝ)
  let dy : ℝ := ((p.y - other.y : ℚ) : ℝ)
  Real.sqrt (dx * dx + dy * dy)

/-- Polygon: a no-fly zone given by its vertex list. -/
structure Polygon where
  Vertices : List Point
deriving DecidableEq, Repr

/-- LineSegment between two points. -/
structure LineSegment where
  P1 : Point
  P2 : Point
deriving DecidableEq, Repr

/-- direction: cross product sign test (geometry.go). -/
def direction (p1 p2 p3 : Point) : ℚ :=
  (p3.x - p1.x) * (p2.y - p1.y) - (p2.x - p1.x) * (p3.y - p1.y)

/-- onSegment: bounding-box membership of q on segment pr (geometry.go). -/
def onSegment (p r q : Point) : Prop :=
  q.x ≤ max p.x r.x ∧ q.x ≥ min p.x r.x ∧ q.y ≤ max p.y r.y ∧ q.y ≥ min p.y r.y

instance (p r q : Point) : Decidable (onSegment p r q) := by
  unfold onSegment; infer_instance

/-- DoSegmentsIntersect (geometry.go): segment intersection with the
deliberate exemption of shared endpoints and identical/reversed segments. -/
def DoSegmentsIntersect (seg1 seg2 : LineSegment) : Bool :=
  let p1 := seg1.P1
  let p2 := seg1.P2
  let p3 := seg2.P1
  let p4 := seg2.P2
  if (p1 = p3 ∧ p2 = p4) ∨ (p1 = p4 ∧ p2 = p3) then false
  else if p1 = p3 ∨ p1 = p4 ∨ p2 = p3 ∨ p2 = p4 then false
  else
    let d1 := direction p3 p4 p1
    let d2 := direction p3 p4 p2
    let d3 := direction p1 p2 p3
    let d4 := direction p1 p2 p4
    if ((d1 > 0 ∧ d2 < 0) ∨ (d1 < 0 ∧ d2 > 0)) ∧
       ((d3 > 0 ∧ d4 < 0) ∨ (d3 < 0 ∧ d4 > 0)) then true
    else if d1 = 0 ∧ onSegment p3 p4 p1 then true
    else if d2 = 0 ∧ onSegment p3 p4 p2 then true
    else if d3 = 0 ∧ onSegment p1 p2 p3 then true
    else if d4 = 0 ∧ onSegment p1 p2 p4 then true
    else false

/-- IsPointInPolygon (geometry.go): ray casting with sign-of-slope rule. -/
def IsPointInPolygon (point : Point) (polygon : Polygon) : Bool :=
  let n := polygon.Vertices.length
  if n < 3 then false
  else
    let count := (List.range n).foldl (fun count i =>
      let v1 := polygon.Vertices.getD i ⟨0, 0⟩
      let v2 := polygon.Vertices.getD ((i + 1) % n) ⟨0, 0⟩
      if decide (v1.y > point.y) ≠ decide (v2.y > point.y) then
        let slope := (point.x - v1.x) * (v2.y - v1.y) - (v2.x - v1.x) * (point.y - v1.y)
        if v2.y > v1.y then (if slope > 0 then count + 1 else count)
        else (if slope < 0 then count + 1 else count)
      else count) 0
    decide (count % 2 = 1)

/-- DoesSegmentIntersectPolygon (geometry.go): does the segment cross any
polygon edge (consecutive pairs plus the closing edge). -/
def DoesSegmentIntersectPolygon (seg : LineSegment) (polygon : Polygon) : Bool :=
  let n := polygon.Vertices.length
  (List.range n).any (fun i =>
    DoSegmentsIntersect seg
      ⟨polygon.Vertices.getD i ⟨0, 0⟩, polygon.Vertices.getD ((i + 1) % n) ⟨0, 0⟩⟩)

/-- IsPathClear (geometry.go): segment is collision-free against all zones:
no boundary intersection, neither endpoint inside, midpoint not inside. -/
def IsPathClear (p1 p2 : Point) (noFlyZones : List Polygon) : Bool :=
  let segment : LineSegment := ⟨p1, p2⟩
  noFlyZones.all (fun zone =>
    !DoesSegmentIntersectPolygon segment zone &&
    !IsPointInPolygon p1 zone &&
    !IsPointInPolygon p2 zone &&
    !IsPointInPolygon ⟨(p1.x + p2.x) / 2, (p1.y + p2.y) / 2⟩ zone)

/-! ## Graph and A* search (visibility_graph.go, astar.go) -/

/-- Edge of the search graph: destination index and Euclidean cost. -/
structure Edge where
  To : ℕ
  Cost : ℝ

/-- Graph: map from node id to point and map from node id to edge list.
Go maps are embedded as association lists with unique keys; the first
binding wins, and an absent key reads as the Go zero value. -/
structure Graph where
  Nodes : List (ℕ × Point)
  Edges : List (ℕ × List Edge)

/-- Association-list lookup, mirroring a Go map read. -/
def lookupKey {β : Type _} : List (ℕ × β) → ℕ → Option β
  | [], _ => none
  | (k, v) :: rest, i => if k = i then some v else lookupKey rest i

/-- Go map read `graph.Nodes[i]` with zero-value default. -/
def Graph.nodePoint (g : Graph) (i : ℕ) : Point :=
  (lookupKey g.Nodes i).getD ⟨0, 0⟩

/-- Go map read `graph.Edges[i]` with zero-value default. -/
def Graph.edgesOf (g : Graph) (i : ℕ) : List Edge :=
  (lookupKey g.Edges i).getD []

/-- A node of the A* search (astar.go `Node`).  The `H` and `F` fields of the
Go struct are functions of the other data (`H` is fixed at creation from the
node id, and `F = G + H` is restored after every update), so they are
represented by the functions `nodeH` and `nodeF`; the `Parent` pointer chain
is represented by the accumulated id path (parents are popped, hence final,
when a child link is created, so the chain equals this snapshot).  The heap
`Index` field is bookkeeping of container/heap and has no observable
content. -/
structure ANode where
  NodeID : ℕ
  G : ℝ
  path : List ℕ

/-- Heuristic H of a node: distance from the node's point to the end point. -/
noncomputable def nodeH (g : Graph) (endPoint : Point) (i : ℕ) : ℝ :=
  (g.nodePoint i).Distance endPoint

/-- Priority F = G + H ordering the open heap (astar.go `Less`). -/
noncomputable def nodeF (g : Graph) (endPoint : Point) (n : ANode) : ℝ :=
  n.G + nodeH g endPoint n.NodeID

/-- heap.Pop on the open set: removes an open node of minimal F.  The heap
of container/heap guarantees exactly that the popped element is minimal for
the `Less` ordering (F comparison); we realise the choice deterministically
as the first minimal element. -/
noncomputable def popMin (g : Graph) (endPoint : Point) : List ANode → Option (ANode × List ANode)
  | [] => none
  | n :: rest =>
    match popMin g endPoint rest with
    | none => some (n, [])
    | some (m, rest') =>
      if nodeF g endPoint m < nodeF g endPoint n then some (m, n :: rest') else some (n, rest)

/-- One iteration of the neighbour loop of astar.go: skip closed neighbours,
push unseen neighbours with tentative cost, lower the cost of open
neighbours on improvement (openSetMap tracks exactly the open heap content,
so both are embedded as the single list `opn`). -/
noncomputable def relaxEdge (g : Graph) (cur : ANode) (closed : List ℕ)
    (opn : List ANode) (e : Edge) : List ANode :=
  if e.To ∈ closed then opn
  else
    let tentativeG := cur.G + e.Cost
    match opn.find? (fun n => n.NodeID == e.To) with
    | none => opn ++ [⟨e.To, tentativeG, cur.path ++ [e.To]⟩]
    | some n =>
      if tentativeG < n.G then
        opn.map (fun m => if m.NodeID == e.To then ⟨e.To, tentativeG, cur.path ++ [e.To]⟩ else m)
      else opn

/-- The main A* loop of astar.go, with explicit fuel.  Every loop iteration
pops one node and each node is pushed at most once (a pushed node is open,
open nodes are only updated in place, and popped nodes are closed and never
re-pushed), so the number of iterations is bounded by the number of pushes;
the fuel supplied by `AStarPathOnGraph` dominates it. -/
noncomputable def astarLoop (g : Graph) (endIdx : ℕ) (endPoint : Point) :
    ℕ → List ANode → List ℕ → List Point × Bool
  | 0, _, _ => ([], false)
  | fuel + 1, opn, closed =>
    match popMin g endPoint opn with
    | none => ([], false)
    | some (cur, rest) =>
      if cur.NodeID = endIdx then (cur.path.map g.nodePoint, true)
      else
        let closed' := cur.NodeID :: closed
        let opn' := (g.edgesOf cur.NodeID).foldl (relaxEdge g cur closed') rest
        astarLoop g endIdx endPoint fuel opn' closed'

/-- Total number of stored directed edges of a graph. -/
def Graph.totalEdges (g : Graph) : ℕ :=
  (g.Edges.map (fun p => p.2.length)).sum

/-- AStarPathOnGraph (astar.go): nil/empty-graph guard, then the A* search
from startIdx to endIdx.  The Go `*Graph` pointer is an `Option Graph`. -/
noncomputable def AStarPathOnGraph (graph : Option Graph) (startIdx endIdx : ℕ) :
    List Point × Bool :=
  match graph with
  | none => ([], false)
  | some g =>
    if g.Nodes.length = 0 then ([], false)
    else
      let endPoint := g.nodePoint endIdx
      let startNode : ANode := ⟨startIdx, 0, [startIdx]⟩
      astarLoop g endIdx endPoint (g.Nodes.length + g.totalEdges + 2) [startNode] []

/-- Concrete graph for C2: one node with id 5; ids 7 are absent. -/
def gC2 : Graph := ⟨[(5, ⟨1, 1⟩)], []⟩

/-! ## Visibility graph builder (visibility_graph.go) -/

/-- Go append `graph.Edges[i] = append(graph.Edges[i], e)` on the
association-list edge map:extend the binding of `i`, creating it (at the
end, Go's zero value then append) when absent. -/
def addEdge (edges : List (ℕ × List Edge)) (i : ℕ) (e : Edge) : List (ℕ × List Edge) :=
  match edges with
  | [] => [(i, [e])]
  | (k, l) :: rest => if k = i then (k, l ++ [e]) :: rest else (k, l) :: addEdge rest i e

/-- Association-list lookup keyed by Point (the vertexToIdx map). -/
def lookupPoint : List (Point × ℕ) → Point → Option ℕ
  | [], _ => none
  | (p, i) :: rest, q => if p = q then some i else lookupPoint rest q

/-- Go map write `vertexToIdx[p] = i` (overwrite on equal key). -/
def insertPoint (vmap : List (Point × ℕ)) (p : Point) (i : ℕ) : List (Point × ℕ) :=
  match vmap with
  | [] => [(p, i)]
  | (q, j) :: rest => if q = p then (q, i) :: rest else (q, j) :: insertPoint rest p i

/-- The vertex-insertion loop of BuildVisibilityGraph: walk all polygon
vertices, adding each as a fresh node (ids counting up from the running
nodeIndex) unless an equal point is already mapped.  State is
(Nodes, vertexToIdx, nodeIndex). -/
def addVertices : List Point → List (ℕ × Point) × List (Point × ℕ) × ℕ →
    List (ℕ × Point) × List (Point × ℕ) × ℕ
  | [], st => st
  | v :: rest, (nodes, vmap, nextIdx) =>
    match lookupPoint vmap v with
    | some _ => addVertices rest (nodes, vmap, nextIdx)
    | none => addVertices rest (nodes ++ [(nextIdx, v)], vmap ++ [(v, nextIdx)], nextIdx + 1)

/-- The edge double loop of BuildVisibilityGraph: every ordered node pair is
visited, pairs with i ≥ j are skipped, and a passing IsPathClear test inserts
the two directed edges with the one computed distance.  Go map iteration
order is unspecified; the embedding iterates the node list in insertion
order, one admissible order (the i ≥ j guard visits each unordered pair
exactly once under any order). -/
noncomputable def buildVisEdges (entries : List (ℕ × Point)) (noFlyZones : List Polygon) :
    List (ℕ × List Edge) :=
  (entries.flatMap (fun a => entries.map (fun b => (a, b)))).foldl
    (fun em pr =>
      if pr.1.1 ≥ pr.2.1 then em
      else if IsPathClear pr.1.2 pr.2.2 noFlyZones then
        addEdge (addEdge em pr.1.1 ⟨pr.2.1, pr.1.2.Distance pr.2.2⟩)
          pr.2.1 ⟨pr.1.1, pr.1.2.Distance pr.2.2⟩
      else em) []

/-- BuildVisibilityGraph (visibility_graph.go): nodes are start (id 0),
end (id 1) and the deduplicated polygon vertices; above 1000 nodes the
degenerate fallback graph with only the direct start-end edge pair is
returned, otherwise all line-of-sight edges are inserted. -/
noncomputable def BuildVisibilityGraph (start end_ : Point) (noFlyZones : List Polygon) : Graph :=
  let nodes0 : List (ℕ × Point) := [(0, start), (1, end_)]
  let vmap0 := insertPoint (insertPoint [] start 0) end_ 1
  let st := addVertices ((noFlyZones.map Polygon.Vertices).flatten) (nodes0, vmap0, 2)
  let nodes := st.1
  if nodes.length > 1000 then
    { Nodes := nodes,
      Edges := addEdge (addEdge [] 0 ⟨1, start.Distance end_⟩) 1 ⟨0, start.Distance end_⟩ }
  else
    { Nodes := nodes, Edges := buildVisEdges nodes noFlyZones }

/-- Edge (i→j) with cost c is present in the graph. -/
def Graph.hasEdge (g : Graph) (i j : ℕ) (c : ℝ) : Prop :=
  (⟨j, c⟩ : Edge) ∈ g.edgesOf i

/-- An edge map is symmetric: (i→j) at cost c present iff (j→i) is. -/
def EdgeMapSymm (em : List (ℕ × List Edge)) : Prop :=
  ∀ i j c, (⟨j, c⟩ : Edge) ∈ (lookupKey em i).getD [] ↔ (⟨i, c⟩ : Edge) ∈ (lookupKey em j).getD []

/-! ## Probabilistic roadmap (prm_graph.go) -/

/-- PRMNode: id, point, and ids of connected nodes (field Point of the Go
struct is written in lowercase here to avoid clashing with the type). -/
structure PRMNode where
  ID : ℕ
  point : Point
  Edges : List ℕ
deriving DecidableEq, Repr

/-- Default PRMNode used for out-of-range slice reads. -/
def dfltPRMNode : PRMNode := ⟨0, ⟨0, 0⟩, []⟩

/-- Provenance bounding box of a roadmap. -/
structure BoundingBox where
  MinLat : ℚ
  MaxLat : ℚ
  MinLon : ℚ
  MaxLon : ℚ
deriving DecidableEq, Repr

/-- PRMGraph: node slice plus provenance metadata. -/
structure PRMGraph where
  Nodes : List PRMNode
  Bounds : BoundingBox
  NumSamples : ℕ
  ConnectionRadius : ℝ

/-- Netherlands bounding box constants of prm_graph.go. -/
def NetherlandsMinLat : ℚ := 50.75

/-- North bound. -/
def NetherlandsMaxLat : ℚ := 53.55

/-- West bound. -/
def NetherlandsMinLon : ℚ := 3.36

/-- East bound. -/
def NetherlandsMaxLon : ℚ := 7.23

/-- The `distance` helper of prm_graph.go (planar Euclidean distance). -/
noncomputable def distance (p1 p2 : Point) : ℝ :=
  let dx : ℝ := ((p1.x - p2.x : ℚ) : ℝ)
  let dy : ℝ := ((p1.y - p2.y : ℚ) : ℝ)
  Real.sqrt (dx * dx + dy * dy)

/-- DoesEdgeIntersectPolygon (prm_graph.go): boundary test only. -/
def DoesEdgeIntersectPolygon (p1 p2 : Point) (polygon : Polygon) : Bool :=
  DoesSegmentIntersectPolygon ⟨p1, p2⟩ polygon

/-- The sample-rejection loop of BuildPRMGraph.  The stream of random draws
(rand.Float64 pairs scaled to the Netherlands bounding box) is supplied
explicitly as a list consumed in order; a run of Go corresponds to a stream
holding at least maxAttempts draws.  A draw inside any no-fly zone is
rejected; an accepted draw becomes the node with the next id. -/
def samplePRMGo : List Point → ℕ → ℕ → ℕ → ℕ → List Polygon → List PRMNode → List PRMNode
  | stream, valid, attempts, numSamples, maxAttempts, zones, acc =>
    match stream with
    | [] => acc
    | p :: rest =>
      if valid < numSamples ∧ attempts < maxAttempts then
        if zones.any (fun polygon => IsPointInPolygon p polygon) then
          samplePRMGo rest valid (attempts + 1) numSamples maxAttempts zones acc
        else
          samplePRMGo rest (valid + 1) (attempts + 1) numSamples maxAttempts zones
            (acc ++ [⟨valid, p, []⟩])
      else acc

/-- Append j to the adjacency of the node at position i (Go
`graph.Nodes[i].Edges = append(graph.Nodes[i].Edges, j)`). -/
def pushEdge : List PRMNode → ℕ → ℕ → List PRMNode
  | [], _, _ => []
  | n :: rest, 0, j => { n with Edges := n.Edges ++ [j] } :: rest
  | n :: rest, i + 1, j => n :: pushEdge rest i j

/-- The inner connection step of the PRM edge double loop for the pair
(i, j): nodes within the connection radius whose connecting segment hits no
zone boundary are linked bidirectionally.  Note that, unlike IsPathClear,
only the boundary-intersection test is consulted here. -/
noncomputable def connectPRMPair (zones : List Polygon) (radius : ℝ)
    (nodes : List PRMNode) (pr : ℕ × ℕ) : List PRMNode :=
  let pI := (nodes.getD pr.1 dfltPRMNode).point
  let pJ := (nodes.getD pr.2 dfltPRMNode).point
  if distance pI pJ ≤ radius then
    if zones.any (fun polygon => DoesEdgeIntersectPolygon pI pJ polygon) then nodes
    else pushEdge (pushEdge nodes pr.1 pr.2) pr.2 pr.1
  else nodes

/-- The connection condition the PRM edge loop actually tests for a pair:
within the radius and no boundary intersection with any zone. -/
noncomputable def prmPairOK (zones : List Polygon) (radius : ℝ)
    (nodes : List PRMNode) (pr : ℕ × ℕ) : Prop :=
  distance (nodes.getD pr.1 dfltPRMNode).point (nodes.getD pr.2 dfltPRMNode).point ≤ radius ∧
  zones.any (fun polygon => DoesEdgeIntersectPolygon (nodes.getD pr.1 dfltPRMNode).point
    (nodes.getD pr.2 dfltPRMNode).point polygon) = false

/-- The index pairs (i, j), i < j < len, in the visit order of the
double loop of BuildPRMGraph. -/
def prmPairs (len : ℕ) : List (ℕ × ℕ) :=
  (List.range len).flatMap (fun i => (List.range' (i + 1) (len - (i + 1))).map (fun j => (i, j)))

/-- BuildPRMGraph (prm_graph.go): rejection sampling (over the explicit
draw stream), then radius-and-boundary-test edge connection. -/
noncomputable def BuildPRMGraph (stream : List Point) (numSamples : ℕ)
    (connectionRadius : ℝ) (noFlyZones : List Polygon) : PRMGraph :=
  let nodes0 := samplePRMGo stream 0 0 numSamples (numSamples * 10) noFlyZones []
  let nodes := (prmPairs nodes0.length).foldl (connectPRMPair noFlyZones connectionRadius) nodes0
  { Nodes := nodes
    Bounds := ⟨NetherlandsMinLat, NetherlandsMaxLat, NetherlandsMinLon, NetherlandsMaxLon⟩
    NumSamples := numSamples
    ConnectionRadius := connectionRadius }

/-- One iteration of an endpoint-connection loop of CreateGraphWithStartEnd:
state is (node list, connected flag); node i of the original roadmap is
linked to the endpoint node pid when within the radius and boundary-clear. -/
noncomputable def connectEndpoint (g : PRMGraph) (zones : List Polygon) (p : Point) (pid : ℕ)
    (st : List PRMNode × Bool) (i : ℕ) : List PRMNode × Bool :=
  let pI := (g.Nodes.getD i dfltPRMNode).point
  if distance p pI ≤ g.ConnectionRadius then
    if zones.any (fun polygon => DoesEdgeIntersectPolygon p pI polygon) then st
    else (pushEdge (pushEdge st.1 pid i) i pid, true)
  else st

/-- The connection condition CreateGraphWithStartEnd tests for an endpoint
point p against roadmap node i. -/
noncomputable def endpointOK (g : PRMGraph) (zones : List Polygon) (p : Point) (i : ℕ) : Prop :=
  distance p (g.Nodes.getD i dfltPRMNode).point ≤ g.ConnectionRadius ∧
  zones.any (fun polygon => DoesEdgeIntersectPolygon p
    (g.Nodes.getD i dfltPRMNode).point polygon) = false

/-- CreateGraphWithStartEnd (prm_graph.go): copy the roadmap, append start
and end as fresh nodes, connect each to every in-radius boundary-clear
roadmap node, and report -1 in place of a node id on connection failure
(start checked first). -/
noncomputable def PRMGraph.CreateGraphWithStartEnd (g : PRMGraph) (start endP : Point)
    (noFlyZones : List Polygon) : PRMGraph × ℤ × ℤ :=
  let startNodeID := g.Nodes.length
  let endNodeID := g.Nodes.length + 1
  let base := g.Nodes ++ [⟨startNodeID, start, []⟩, ⟨endNodeID, endP, []⟩]
  let stStart := (List.range g.Nodes.length).foldl
    (connectEndpoint g noFlyZones start startNodeID) (base, false)
  let stEnd := (List.range g.Nodes.length).foldl
    (connectEndpoint g noFlyZones endP endNodeID) (stStart.1, false)
  let tempGraph : PRMGraph :=
    { Nodes := stEnd.1, Bounds := g.Bounds, NumSamples := g.NumSamples,
      ConnectionRadius := g.ConnectionRadius }
  if stStart.2 = false then (tempGraph, -1, (endNodeID : ℤ))
  else if stEnd.2 = false then (tempGraph, (startNodeID : ℤ), -1)
  else (tempGraph, (startNodeID : ℤ), (endNodeID : ℤ))

/-- Go map write with overwrite on an existing key. -/
def insertKey {β : Type _} : List (ℕ × β) → ℕ → β → List (ℕ × β)
  | [], k, v => [(k, v)]
  | (a, w) :: rest, k, v => if a = k then (a, v) :: rest else (a, w) :: insertKey rest k v

/-- ConvertToGraph (prm_graph.go): node map keyed by node id, then edge
lists with costs recomputed as the planar distance between endpoints
(neighbour looked up by slice position, which equals its id for built
roadmaps). -/
noncomputable def PRMGraph.ConvertToGraph (g : PRMGraph) : Graph :=
  let nodes := g.Nodes.foldl (fun acc node => insertKey acc node.ID node.point) []
  let edges := g.Nodes.foldl (fun acc node =>
    insertKey acc node.ID (node.Edges.map (fun neighborID =>
      ⟨neighborID, node.point.Distance (g.Nodes.getD neighborID dfltPRMNode).point⟩))) []
  ⟨nodes, edges⟩

/-- A roadmap node list is well indexed when every node's ID equals its
slice position (true of all roadmaps the builders produce; ConvertToGraph
relies on it when indexing the slice by neighbour id). -/
def WellIndexed (nodes : List PRMNode) : Prop :=
  ∀ k, k < nodes.length → (nodes.getD k dfltPRMNode).ID = k

/-- Symmetric adjacency of a roadmap node list. -/
def AdjSymm (nodes : List PRMNode) : Prop :=
  ∀ i j, i < nodes.length → j < nodes.length →
    (j ∈ (nodes.getD i dfltPRMNode).Edges ↔ i ∈ (nodes.getD j dfltPRMNode).Edges)

/-- Adjacency targets of a roadmap node list stay in range. -/
def EdgesInRange (nodes : List PRMNode) : Prop :=
  ∀ i, i < nodes.length → ∀ j ∈ (nodes.getD i dfltPRMNode).Edges, j < nodes.length

/-! ## Polygon simplification (simplify.go, topology-preserving version) -/

/-- Go slice read points[i] (in-range wherever the code performs it). -/
def pget (l : List Point) (i : ℕ) : Point :=
  l.getD i ⟨0, 0⟩

/-- perpendicularDistance (simplify.go): distance from a point to the line
through lineStart and lineEnd, by projecting onto the normalised direction
(left unnormalised when the chord is degenerate). -/
noncomputable def perpendicularDistance (point lineStart lineEnd : Point) : ℝ :=
  let dx : ℝ := ((lineEnd.x - lineStart.x : ℚ) : ℝ)
  let dy : ℝ := ((lineEnd.y - lineStart.y : ℚ) : ℝ)
  let mag := Real.sqrt (dx * dx + dy * dy)
  let dx' := if mag > 0 then dx / mag else dx
  let dy' := if mag > 0 then dy / mag else dy
  let pvx : ℝ := ((point.x - lineStart.x : ℚ) : ℝ)
  let pvy : ℝ := ((point.y - lineStart.y : ℚ) : ℝ)
  let pvdot := dx' * pvx + dy' * pvy
  let ax := pvx - pvdot * dx'
  let ay := pvy - pvdot * dy'
  Real.sqrt (ax * ax + ay * ay)

/-- The maximum-deviation scan of douglasPeucker: the Go for-loop over
i = 1 .. end-1 keeping the first strict running maximum, started at
(index, dmax) = (0, 0). -/
noncomputable def scanMax (d : ℕ → ℝ) (m : ℕ) : ℕ × ℝ :=
  (List.range' 1 m).foldl (fun acc i => if d i > acc.2 then (i, d i) else acc) (0, 0)

/-- douglasPeucker (simplify.go) with explicit fuel.  The Go recursion
terminates whenever epsilon ≥ 0 (the split index is then at least 1); for a
negative epsilon with an all-degenerate interior the Go code would recurse
forever, which fuel exhaustion renders as returning the input unchanged.
`douglasPeucker` supplies fuel equal to the list length, sufficient for
every epsilon ≥ 0. -/
noncomputable def douglasPeuckerFuel : ℕ → List Point → ℝ → List Point
  | 0, points, _ => points
  | fuel + 1, points, epsilon =>
    if points.length ≤ 2 then points
    else
      let e := points.length - 1
      let scan := scanMax (fun i => perpendicularDistance (pget points i) (pget points 0)
        (pget points e)) (e - 1)
      if scan.2 > epsilon then
        let left := douglasPeuckerFuel fuel (points.take (scan.1 + 1)) epsilon
        let right := douglasPeuckerFuel fuel (points.drop scan.1) epsilon
        left.dropLast ++ right
      else [pget points 0, pget points e]

/-- douglasPeucker at its standard fuel. -/
noncomputable def douglasPeucker (points : List Point) (epsilon : ℝ) : List Point :=
  douglasPeuckerFuel points.length points epsilon

/-- closeThreshold of simplify.go (1e-9). -/
def closeThreshold : ℚ := 1 / 1000000000

/-- The closure test of SimplifyPolygon: first and last vertex equal within
closeThreshold in both coordinates. -/
def IsClosedPoly (polygon : Polygon) : Prop :=
  |(pget polygon.Vertices 0).x - (pget polygon.Vertices (polygon.Vertices.length - 1)).x| <
      closeThreshold ∧
  |(pget polygon.Vertices 0).y - (pget polygon.Vertices (polygon.Vertices.length - 1)).y| <
      closeThreshold

instance (polygon : Polygon) : Decidable (IsClosedPoly polygon) := by
  unfold IsClosedPoly
  infer_instance

/-- SimplifyPolygon (simplify.go, topology-preserving version): polygons
with at most 3 vertices are returned unchanged; a closed polygon has its
duplicate closing vertex stripped, the open ring (with the first vertex
re-appended) simplified and re-closed, falling back to the original polygon
when fewer than 3 vertices survive; an open chain is simplified directly. -/
noncomputable def SimplifyPolygon (polygon : Polygon) (epsilon : ℝ) : Polygon :=
  if polygon.Vertices.length ≤ 3 then polygon
  else
    if IsClosedPoly polygon then
      let openPolygon := polygon.Vertices.take (polygon.Vertices.length - 1)
      let simplified := douglasPeucker (openPolygon ++ [pget openPolygon 0]) epsilon
      if 1 < simplified.length then
        if 3 ≤ simplified.dropLast.length then
          ⟨simplified.dropLast ++ [pget simplified.dropLast 0]⟩
        else polygon
      else ⟨simplified⟩
    else ⟨douglasPeucker polygon.Vertices epsilon⟩

/-- Convex quadrilateral used against C3: the sampled nodes (0,0) and (0,4)
are its vertices (outside it for the ray-cast rule), every quad edge shares
an endpoint with the diagonal segment between them (so the boundary test
passes), yet the diagonal's midpoint (0,2) lies strictly inside. -/
def quadC3 : Polygon := ⟨[⟨0, 0⟩, ⟨-1, 2⟩, ⟨0, 4⟩, ⟨5, 2⟩]⟩

/-- Sample stream for the C3 counterexample. -/
def streamC3 : List Point := [⟨0, 0⟩, ⟨0, 4⟩]


/-- Collinear open chain used against C5: four distinct vertices on the
x-axis, whose interior points all lie on the chord, so Douglas-Peucker
keeps only the two endpoints. -/
def polyC5 : Polygon := ⟨[⟨0, 0⟩, ⟨1, 0⟩, ⟨2, 0⟩, ⟨3, 0⟩]⟩

/-- Single-node graph used to witness the A* optimality theorem. -/
def gC1 : Graph := ⟨[(0, ⟨0, 0⟩)], []⟩

/-- PathCost g u p c: p is a walk in g starting at u whose consecutive steps
follow stored edges of g, with total stored cost c.  This is the "path
following graph edges" of the specification. -/
inductive PathCost (g : Graph) : ℕ → List ℕ → ℝ → Prop
  | single (u : ℕ) : PathCost g u [u] 0
  | cons (u : ℕ) (rest : List ℕ) (e : Edge) (c : ℝ) :
      e ∈ g.edgesOf u → PathCost g e.To (e.To :: rest) c →
      PathCost g u (u :: e.To :: rest) (e.Cost + c)
end BeneDrone

namespace BeneDrone

/-! ## Theorems -/

/-- C7: For every two line segments that share at least one endpoint (any
endpoint of one coincides exactly with any endpoint of the other), and for
every two segments that are identical or are reverses of each other,
DoSegmentsIntersect returns false. -/
theorem doSegmentsIntersect_shared_endpoint_false (seg1 seg2 : LineSegment)
    (h : seg1.P1 = seg2.P1 ∨ seg1.P1 = seg2.P2 ∨ seg1.P2 = seg2.P1 ∨ seg1.P2 = seg2.P2 ∨
         (seg1.P1 = seg2.P1 ∧ seg1.P2 = seg2.P2) ∨ (seg1.P1 = seg2.P2 ∧ seg1.P2 = seg2.P1)) :
    DoSegmentsIntersect seg1 seg2 = false := by
  have hs : seg1.P1 = seg2.P1 ∨ seg1.P1 = seg2.P2 ∨ seg1.P2 = seg2.P1 ∨ seg1.P2 = seg2.P2 := by
    tauto
  unfold DoSegmentsIntersect
  dsimp only
  by_cases h1 : (seg1.P1 = seg2.P1 ∧ seg1.P2 = seg2.P2) ∨ (seg1.P1 = seg2.P2 ∧ seg1.P2 = seg2.P1)
  · rw [if_pos h1]
  · rw [if_neg h1, if_pos hs]

/-- Witness for C7 at concrete segments sharing the endpoint (1,0). -/
theorem doSegmentsIntersect_shared_endpoint_false_witness :
    DoSegmentsIntersect ⟨⟨0, 0⟩, ⟨1, 0⟩⟩ ⟨⟨1, 0⟩, ⟨2, 3⟩⟩ = false :=
  doSegmentsIntersect_shared_endpoint_false ⟨⟨0, 0⟩, ⟨1, 0⟩⟩ ⟨⟨1, 0⟩, ⟨2, 3⟩⟩ (by decide)

/-- C2 counterexample: node id 7 is absent from the one-node graph gC2, yet
AStarPathOnGraph with startIdx = endIdx = 7 returns a non-empty path (of the
Go zero-value point) and success = true, not the immediate failure
([], false) the claim demands for an absent endpoint id. -/
theorem astar_absent_endpoint_counterexample :
    lookupKey gC2.Nodes 7 = none ∧ AStarPathOnGraph (some gC2) 7 7 = ([⟨0, 0⟩], true) :=
  ⟨rfl, rfl⟩

/-- C2 amended: for a nil graph, or a graph whose node map is empty,
AStarPathOnGraph immediately returns an empty path and success = false.
(Absence of startIdx or endIdx from a non-empty node map is not detected:
the zero-value point stands in for the missing node, see the
counterexample.) -/
theorem astar_nil_or_empty_graph (graph : Option Graph) (s e : ℕ)
    (h : graph = none ∨ ∃ g, graph = some g ∧ g.Nodes = []) :
    AStarPathOnGraph graph s e = ([], false) := by
  rcases h with h | ⟨g, rfl, hg⟩
  · rw [h]; rfl
  · unfold AStarPathOnGraph
    dsimp only
    rw [hg]
    rfl

/-- Witness for C2 amended at the empty graph. -/
theorem astar_nil_or_empty_graph_witness :
    AStarPathOnGraph (some ⟨[], []⟩) 0 1 = ([], false) :=
  astar_nil_or_empty_graph (some ⟨[], []⟩) 0 1 (Or.inr ⟨⟨[], []⟩, rfl, rfl⟩)

/-- The vertex-insertion loop only appends to the node list. -/
theorem addVertices_nodes_append (verts : List Point) :
    ∀ nodes vmap k, ∃ extra, (addVertices verts (nodes, vmap, k)).1 = nodes ++ extra := by
  induction verts with
  | nil => exact fun nodes vmap k => ⟨[], (List.append_nil nodes).symm⟩
  | cons v rest ih =>
    intro nodes vmap k
    unfold addVertices
    cases h : lookupPoint vmap v with
    | some j => exact ih nodes vmap k
    | none =>
      obtain ⟨extra, hx⟩ := ih (nodes ++ [(k, v)]) (vmap ++ [(v, k)]) (k + 1)
      exact ⟨(k, v) :: extra, by rw [hx, List.append_assoc]; rfl⟩

/-- C10: For every start point, end point, and obstacle list, the graph
returned by BuildVisibilityGraph always maps node id 0 to the start point
and node id 1 to the end point, regardless of obstacle count, coincident
vertices, or the node-ceiling fallback. -/
theorem buildVisibilityGraph_start_end_ids (start end_ : Point) (noFlyZones : List Polygon) :
    lookupKey (BuildVisibilityGraph start end_ noFlyZones).Nodes 0 = some start ∧
    lookupKey (BuildVisibilityGraph start end_ noFlyZones).Nodes 1 = some end_ := by
  have hnodes : ∃ extra,
      (addVertices ((noFlyZones.map Polygon.Vertices).flatten)
        ([(0, start), (1, end_)], insertPoint (insertPoint [] start 0) end_ 1, 2)).1 =
      (0, start) :: (1, end_) :: extra := by
    obtain ⟨extra, hx⟩ := addVertices_nodes_append ((noFlyZones.map Polygon.Vertices).flatten)
      [(0, start), (1, end_)] (insertPoint (insertPoint [] start 0) end_ 1) 2
    exact ⟨extra, hx⟩
  obtain ⟨extra, hx⟩ := hnodes
  unfold BuildVisibilityGraph
  dsimp only
  split_ifs with h
  · rw [hx]; exact ⟨rfl, rfl⟩
  · rw [hx]; exact ⟨rfl, rfl⟩

/-- C9: with zero obstacles, the visibility graph for any start and end has
exactly the direct edge of cost Distance(start, end) out of the start node,
and A* between node ids 0 and 1 returns exactly the two-point path
[start, end] with success = true. -/
theorem route_no_obstacles (start end_ : Point) :
    AStarPathOnGraph (some (BuildVisibilityGraph start end_ [])) 0 1 = ([start, end_], true) ∧
    (BuildVisibilityGraph start end_ []).edgesOf 0 = [⟨1, start.Distance end_⟩] :=
  ⟨rfl, rfl⟩

/-- Looking up the extended key after addEdge sees the appended edge. -/
theorem lookup_addEdge_self (em : List (ℕ × List Edge)) (k : ℕ) (e : Edge) :
    lookupKey (addEdge em k e) k = some ((lookupKey em k).getD [] ++ [e]) := by
  induction em with
  | nil => simp [addEdge, lookupKey]
  | cons hd rest ih =>
    obtain ⟨a, l⟩ := hd
    unfold addEdge
    by_cases h : a = k
    · subst h
      simp [lookupKey]
    · simp only [if_neg h]
      unfold lookupKey
      simp only [if_neg h]
      exact ih

/-- Looking up any other key is unchanged by addEdge. -/
theorem lookup_addEdge_other (em : List (ℕ × List Edge)) (k a : ℕ) (e : Edge)
    (h : a ≠ k) : lookupKey (addEdge em k e) a = lookupKey em a := by
  have hk : k ≠ a := Ne.symm h
  induction em with
  | nil => simp [addEdge, lookupKey, hk]
  | cons hd rest ih =>
    obtain ⟨b, l⟩ := hd
    unfold addEdge
    by_cases hb : b = k
    · rw [if_pos hb]
      have hba : b ≠ a := by rw [hb]; exact hk
      unfold lookupKey
      rw [if_neg hba, if_neg hba]
    · rw [if_neg hb]
      unfold lookupKey
      by_cases hba : b = a
      · rw [if_pos hba, if_pos hba]
      · rw [if_neg hba, if_neg hba]
        exact ih

/-- Membership in the edge map after addEdge. -/
theorem mem_addEdge (em : List (ℕ × List Edge)) (k a : ℕ) (e f : Edge) :
    f ∈ (lookupKey (addEdge em k e) a).getD [] ↔
      (f ∈ (lookupKey em a).getD [] ∨ (a = k ∧ f = e)) := by
  by_cases h : a = k
  · subst h
    rw [lookup_addEdge_self]
    simp
  · rw [lookup_addEdge_other em k a e h]
    simp [h]

/-- Inserting the two directed edges of one undirected pair preserves
symmetry of the edge map. -/
theorem edgeMapSymm_addPair (em : List (ℕ × List Edge)) (i j : ℕ) (c : ℝ)
    (hsym : EdgeMapSymm em) :
    EdgeMapSymm (addEdge (addEdge em i ⟨j, c⟩) j ⟨i, c⟩) := by
  intro a b d
  rw [mem_addEdge, mem_addEdge, mem_addEdge, mem_addEdge]
  simp only [Edge.mk.injEq]
  constructor
  · rintro ((h | ⟨rfl, rfl, rfl⟩) | ⟨rfl, rfl, rfl⟩)
    · exact Or.inl (Or.inl ((hsym a b d).mp h))
    · exact Or.inr ⟨rfl, rfl, rfl⟩
    · exact Or.inl (Or.inr ⟨rfl, rfl, rfl⟩)
  · rintro ((h | ⟨rfl, rfl, rfl⟩) | ⟨rfl, rfl, rfl⟩)
    · exact Or.inl (Or.inl ((hsym a b d).mpr h))
    · exact Or.inr ⟨rfl, rfl, rfl⟩
    · exact Or.inl (Or.inr ⟨rfl, rfl, rfl⟩)

/-- The visibility-graph edge fold keeps the edge map symmetric. -/
theorem buildVisEdges_symm_aux (noFlyZones : List Polygon)
    (prs : List ((ℕ × Point) × (ℕ × Point))) :
    ∀ em, EdgeMapSymm em → EdgeMapSymm (prs.foldl
      (fun em pr =>
        if pr.1.1 ≥ pr.2.1 then em
        else if IsPathClear pr.1.2 pr.2.2 noFlyZones then
          addEdge (addEdge em pr.1.1 ⟨pr.2.1, pr.1.2.Distance pr.2.2⟩)
            pr.2.1 ⟨pr.1.1, pr.1.2.Distance pr.2.2⟩
        else em) em) := by
  induction prs with
  | nil => exact fun em h => h
  | cons pr rest ih =>
    intro em h
    simp only [List.foldl_cons]
    apply ih
    split_ifs with h1 h2
    · exact h
    · exact edgeMapSymm_addPair em pr.1.1 pr.2.1 (pr.1.2.Distance pr.2.2) h
    · exact h

/-- The empty edge map is symmetric. -/
theorem edgeMapSymm_nil : EdgeMapSymm [] := by
  intro a b c
  simp [lookupKey]

/-- Symmetry of every visibility graph, fallback branch included. -/
theorem buildVisibilityGraph_symm (start end_ : Point) (noFlyZones : List Polygon) :
    EdgeMapSymm (BuildVisibilityGraph start end_ noFlyZones).Edges := by
  unfold BuildVisibilityGraph
  dsimp only
  split_ifs with h
  · exact edgeMapSymm_addPair [] 0 1 (start.Distance end_) edgeMapSymm_nil
  · unfold buildVisEdges
    exact buildVisEdges_symm_aux noFlyZones _ [] edgeMapSymm_nil

/-- pushEdge keeps the node-list length. -/
theorem pushEdge_length (nodes : List PRMNode) (i j : ℕ) :
    (pushEdge nodes i j).length = nodes.length := by
  induction nodes generalizing i with
  | nil => rfl
  | cons n rest ih =>
    cases i with
    | zero => rfl
    | succ i' => simpa [pushEdge] using ih i'

/-- pushEdge keeps every node's ID. -/
theorem pushEdge_getD_ID (nodes : List PRMNode) (i j k : ℕ) :
    ((pushEdge nodes i j).getD k dfltPRMNode).ID = (nodes.getD k dfltPRMNode).ID := by
  induction nodes generalizing i k with
  | nil => rfl
  | cons n rest ih =>
    cases i with
    | zero => cases k with
      | zero => rfl
      | succ k' => rfl
    | succ i' => cases k with
      | zero => rfl
      | succ k' => simpa [pushEdge] using ih i' k'

/-- pushEdge keeps every node's point. -/
theorem pushEdge_getD_point (nodes : List PRMNode) (i j k : ℕ) :
    ((pushEdge nodes i j).getD k dfltPRMNode).point = (nodes.getD k dfltPRMNode).point := by
  induction nodes generalizing i k with
  | nil => rfl
  | cons n rest ih =>
    cases i with
    | zero => cases k with
      | zero => rfl
      | succ k' => rfl
    | succ i' => cases k with
      | zero => rfl
      | succ k' => simpa [pushEdge] using ih i' k'

/-- Adjacency membership after pushEdge. -/
theorem mem_pushEdge_adj (nodes : List PRMNode) (i j k b : ℕ) :
    b ∈ ((pushEdge nodes i j).getD k dfltPRMNode).Edges ↔
      (b ∈ (nodes.getD k dfltPRMNode).Edges ∨ (k = i ∧ b = j ∧ i < nodes.length)) := by
  induction nodes generalizing i k with
  | nil =>
    simp [pushEdge, dfltPRMNode]
  | cons n rest ih =>
    cases i with
    | zero =>
      cases k with
      | zero => simp [pushEdge]
      | succ k' => simp [pushEdge]
    | succ i' =>
      cases k with
      | zero => simp [pushEdge]
      | succ k' =>
        have := ih i' k'
        simp only [pushEdge, List.getD_cons_succ, List.length_cons]
        rw [this]
        constructor
        · rintro (h | ⟨rfl, rfl, hlt⟩)
          · exact Or.inl h
          · exact Or.inr ⟨rfl, rfl, Nat.succ_lt_succ hlt⟩
        · rintro (h | ⟨hk, rfl, hlt⟩)
          · exact Or.inl h
          · exact Or.inr ⟨Nat.succ_injective hk, rfl, Nat.lt_of_succ_lt_succ hlt⟩

/-- Adjacency lists only grow under pushEdge. -/
theorem pushEdge_adj_append (nodes : List PRMNode) (i j k : ℕ) :
    ∃ extra, ((pushEdge nodes i j).getD k dfltPRMNode).Edges =
      (nodes.getD k dfltPRMNode).Edges ++ extra := by
  induction nodes generalizing i k with
  | nil => exact ⟨[], rfl⟩
  | cons n rest ih =>
    cases i with
    | zero =>
      cases k with
      | zero => exact ⟨[j], rfl⟩
      | succ k' => exact ⟨[], by simp [pushEdge]⟩
    | succ i' =>
      cases k with
      | zero => exact ⟨[], by simp [pushEdge]⟩
      | succ k' => simpa [pushEdge] using ih i' k'

/-- connectPRMPair keeps the node-list length. -/
theorem connectPRMPair_length (zones : List Polygon) (radius : ℝ)
    (nodes : List PRMNode) (pr : ℕ × ℕ) :
    (connectPRMPair zones radius nodes pr).length = nodes.length := by
  unfold connectPRMPair
  dsimp only
  split_ifs <;> simp [pushEdge_length]

/-- connectPRMPair keeps every node's ID. -/
theorem connectPRMPair_getD_ID (zones : List Polygon) (radius : ℝ)
    (nodes : List PRMNode) (pr : ℕ × ℕ) (k : ℕ) :
    ((connectPRMPair zones radius nodes pr).getD k dfltPRMNode).ID =
      (nodes.getD k dfltPRMNode).ID := by
  unfold connectPRMPair
  dsimp only
  split_ifs with h1 h2
  · rfl
  · rw [pushEdge_getD_ID, pushEdge_getD_ID]
  · rfl

/-- connectPRMPair keeps every node's point. -/
theorem connectPRMPair_getD_point (zones : List Polygon) (radius : ℝ)
    (nodes : List PRMNode) (pr : ℕ × ℕ) (k : ℕ) :
    ((connectPRMPair zones radius nodes pr).getD k dfltPRMNode).point =
      (nodes.getD k dfltPRMNode).point := by
  unfold connectPRMPair
  dsimp only
  split_ifs with h1 h2
  · rfl
  · rw [pushEdge_getD_point, pushEdge_getD_point]
  · rfl

/-- Adjacency membership after one pair-connection step. -/
theorem mem_connectPRMPair_adj (zones : List Polygon) (radius : ℝ)
    (nodes : List PRMNode) (pr : ℕ × ℕ) (k b : ℕ) :
    b ∈ ((connectPRMPair zones radius nodes pr).getD k dfltPRMNode).Edges ↔
      (b ∈ (nodes.getD k dfltPRMNode).Edges ∨
        (prmPairOK zones radius nodes pr ∧
          ((k = pr.1 ∧ b = pr.2 ∧ pr.1 < nodes.length) ∨
           (k = pr.2 ∧ b = pr.1 ∧ pr.2 < nodes.length)))) := by
  unfold connectPRMPair prmPairOK
  dsimp only
  split_ifs with h1 h2
  · rw [h2]
    simp
  · rw [mem_pushEdge_adj, mem_pushEdge_adj, pushEdge_length]
    have hOK : zones.any (fun polygon => DoesEdgeIntersectPolygon
        (nodes.getD pr.1 dfltPRMNode).point (nodes.getD pr.2 dfltPRMNode).point polygon)
        = false := Bool.not_eq_true _ ▸ eq_false_of_ne_true h2
    simp only [h1, hOK, true_and, and_true]
    tauto
  · have h1' : ¬ distance (nodes[pr.1]?.getD dfltPRMNode).point
        (nodes[pr.2]?.getD dfltPRMNode).point ≤ radius := by
      simpa [List.getD] using h1
    simp [h1']

/-- prmPairOK only reads points, hence is stable under pair connection. -/
theorem prmPairOK_connect_stable (zones : List Polygon) (radius : ℝ)
    (nodes : List PRMNode) (pr pr' : ℕ × ℕ) :
    prmPairOK zones radius (connectPRMPair zones radius nodes pr) pr' ↔
      prmPairOK zones radius nodes pr' := by
  unfold prmPairOK
  rw [connectPRMPair_getD_point, connectPRMPair_getD_point]

/-- Node points are unchanged by the whole connection fold. -/
theorem foldl_connect_getD_point (zones : List Polygon) (radius : ℝ)
    (L : List (ℕ × ℕ)) :
    ∀ nodes k, ((L.foldl (connectPRMPair zones radius) nodes).getD k dfltPRMNode).point =
      (nodes.getD k dfltPRMNode).point := by
  induction L with
  | nil => intro nodes k; rfl
  | cons pr L ih =>
    intro nodes k
    rw [List.foldl_cons, ih, connectPRMPair_getD_point]

/-- Node IDs are unchanged by the whole connection fold. -/
theorem foldl_connect_getD_ID (zones : List Polygon) (radius : ℝ)
    (L : List (ℕ × ℕ)) :
    ∀ nodes k, ((L.foldl (connectPRMPair zones radius) nodes).getD k dfltPRMNode).ID =
      (nodes.getD k dfltPRMNode).ID := by
  induction L with
  | nil => intro nodes k; rfl
  | cons pr L ih =>
    intro nodes k
    rw [List.foldl_cons, ih, connectPRMPair_getD_ID]

/-- The node-list length is unchanged by the whole connection fold. -/
theorem foldl_connect_length (zones : List Polygon) (radius : ℝ)
    (L : List (ℕ × ℕ)) :
    ∀ nodes, (L.foldl (connectPRMPair zones radius) nodes).length = nodes.length := by
  induction L with
  | nil => intro nodes; rfl
  | cons pr L ih =>
    intro nodes
    rw [List.foldl_cons, ih, connectPRMPair_length]

/-- The sampling loop produces nodes whose id equals their position and
whose adjacency is empty. -/
theorem samplePRMGo_invariant (stream : List Point) :
    ∀ numS maxA zones attempts (acc : List PRMNode),
      (∀ k, k < acc.length → (acc.getD k dfltPRMNode).ID = k) →
      (∀ k, (acc.getD k dfltPRMNode).Edges = []) →
      (∀ k, k < (samplePRMGo stream acc.length attempts numS maxA zones acc).length →
        ((samplePRMGo stream acc.length attempts numS maxA zones acc).getD k dfltPRMNode).ID = k) ∧
      (∀ k, ((samplePRMGo stream acc.length attempts numS maxA zones acc).getD k
        dfltPRMNode).Edges = []) := by
  induction stream with
  | nil => exact fun numS maxA zones attempts acc hID hE => ⟨hID, hE⟩
  | cons p rest ih =>
    intro numS maxA zones attempts acc hID hE
    unfold samplePRMGo
    dsimp only
    split_ifs with h1 h2
    · exact ih numS maxA zones (attempts + 1) acc hID hE
    · have hlen : (acc ++ [(⟨acc.length, p, []⟩ : PRMNode)]).length = acc.length + 1 := by simp
      have hID' : ∀ k, k < (acc ++ [(⟨acc.length, p, []⟩ : PRMNode)]).length →
          ((acc ++ [(⟨acc.length, p, []⟩ : PRMNode)]).getD k dfltPRMNode).ID = k := by
        intro k hk
        rcases Nat.lt_or_ge k acc.length with hk' | hk'
        · rw [List.getD_append _ _ _ _ hk']
          exact hID k hk'
        · rw [hlen] at hk
          have : k = acc.length := Nat.le_antisymm (Nat.lt_succ_iff.mp hk) hk'
          subst this
          rw [List.getD_append_right _ _ _ _ hk']
          simp
      have hE' : ∀ k, ((acc ++ [(⟨acc.length, p, []⟩ : PRMNode)]).getD k
          dfltPRMNode).Edges = [] := by
        intro k
        rcases Nat.lt_or_ge k acc.length with hk' | hk'
        · rw [List.getD_append _ _ _ _ hk']
          exact hE k
        · rw [List.getD_append_right _ _ _ _ hk']
          rcases Nat.eq_or_lt_of_le hk' with hk'' | hk''
          · rw [← hk'']
            simp
          · obtain ⟨m, hm⟩ : ∃ m, k - acc.length = m + 1 := ⟨k - acc.length - 1, by omega⟩
            rw [hm]
            simp [dfltPRMNode]
      have := ih numS maxA zones (attempts + 1) (acc ++ [⟨acc.length, p, []⟩]) hID' hE'
      rw [hlen] at this
      exact this
    · exact ⟨hID, hE⟩

/-- Pair list membership of the PRM double loop. -/
theorem mem_prmPairs (len : ℕ) (pr : ℕ × ℕ) :
    pr ∈ prmPairs len ↔ pr.1 < pr.2 ∧ pr.2 < len := by
  obtain ⟨a, b⟩ := pr
  unfold prmPairs
  simp only [List.mem_flatMap, List.mem_range, List.mem_map, Prod.mk.injEq]
  constructor
  · rintro ⟨i, hi, j, hj, rfl, rfl⟩
    rw [List.mem_range'_1] at hj
    exact ⟨by omega, by omega⟩
  · rintro ⟨hab, hb⟩
    refine ⟨a, by omega, b, ?_, rfl, rfl⟩
    rw [List.mem_range'_1]
    omega

/-- Helper naming the sampled node list of BuildPRMGraph. -/
theorem buildPRMGraph_nodes_eq (stream : List Point) (numSamples : ℕ) (radius : ℝ)
    (zones : List Polygon) :
    (BuildPRMGraph stream numSamples radius zones).Nodes =
      (prmPairs (samplePRMGo stream 0 0 numSamples (numSamples * 10) zones []).length).foldl
        (connectPRMPair zones radius)
        (samplePRMGo stream 0 0 numSamples (numSamples * 10) zones []) := rfl

/-- Adjacency membership after the whole connection fold: an edge is present
exactly when it was present before or some visited pair passing the
radius-and-boundary test introduces it. -/
theorem mem_foldl_connect (zones : List Polygon) (radius : ℝ)
    (L : List (ℕ × ℕ)) :
    ∀ nodes k b, b ∈ ((L.foldl (connectPRMPair zones radius) nodes).getD k dfltPRMNode).Edges ↔
      (b ∈ (nodes.getD k dfltPRMNode).Edges ∨
        ∃ pr ∈ L, prmPairOK zones radius nodes pr ∧
          ((k = pr.1 ∧ b = pr.2 ∧ pr.1 < nodes.length) ∨
           (k = pr.2 ∧ b = pr.1 ∧ pr.2 < nodes.length))) := by
  induction L with
  | nil => intro nodes k b; simp
  | cons pr L ih =>
    intro nodes k b
    rw [List.foldl_cons]
    rw [ih (connectPRMPair zones radius nodes pr) k b]
    rw [mem_connectPRMPair_adj]
    constructor
    · rintro ((h | h) | ⟨pr', hpr', hOK, hsh⟩)
      · exact Or.inl h
      · exact Or.inr ⟨pr, List.mem_cons_self pr L, h⟩
      · rw [prmPairOK_connect_stable] at hOK
        rw [connectPRMPair_length] at hsh
        exact Or.inr ⟨pr', List.mem_cons_of_mem pr hpr', hOK, hsh⟩
    · rintro (h | ⟨pr', hpr', hOK, hsh⟩)
      · exact Or.inl (Or.inl h)
      · rcases List.mem_cons.mp hpr' with rfl | hpr'
        · exact Or.inl (Or.inr ⟨hOK, hsh⟩)
        · refine Or.inr ⟨pr', hpr', ?_, ?_⟩
          · rw [prmPairOK_connect_stable]; exact hOK
          · rw [connectPRMPair_length]; exact hsh

/-- C3 amended: in BuildPRMGraph, for every pair of distinct sampled nodes
i < j, a symmetric edge between them is inserted if and only if the planar
distance between their points is at most connectionRadius and the connecting
segment intersects no obstacle boundary (DoesEdgeIntersectPolygon false for
every zone).  The endpoint-inside and midpoint-inside components of the
IsPathClear test are not consulted at connection time (sampling already
rejects node points inside obstacles, but the midpoint may lie inside, see
the counterexample). -/
theorem buildPRMGraph_edge_iff (stream : List Point) (numSamples : ℕ) (radius : ℝ)
    (zones : List Polygon) (i j : ℕ) (hij : i < j)
    (hj : j < (BuildPRMGraph stream numSamples radius zones).Nodes.length) :
    (j ∈ ((BuildPRMGraph stream numSamples radius zones).Nodes.getD i dfltPRMNode).Edges ↔
      (distance ((BuildPRMGraph stream numSamples radius zones).Nodes.getD i dfltPRMNode).point
         ((BuildPRMGraph stream numSamples radius zones).Nodes.getD j dfltPRMNode).point
           ≤ radius ∧
       ∀ zone ∈ zones, DoesEdgeIntersectPolygon
         ((BuildPRMGraph stream numSamples radius zones).Nodes.getD i dfltPRMNode).point
         ((BuildPRMGraph stream numSamples radius zones).Nodes.getD j dfltPRMNode).point
           zone = false)) ∧
    (i ∈ ((BuildPRMGraph stream numSamples radius zones).Nodes.getD j dfltPRMNode).Edges ↔
     j ∈ ((BuildPRMGraph stream numSamples radius zones).Nodes.getD i dfltPRMNode).Edges) := by
  have hE0 : ∀ k, ((samplePRMGo stream 0 0 numSamples (numSamples * 10) zones []).getD k
      dfltPRMNode).Edges = [] := by
    have h := samplePRMGo_invariant stream numSamples (numSamples * 10) zones 0 []
      (fun k hk => absurd hk (Nat.not_lt_zero k)) (fun k => rfl)
    exact h.2
  have hj0 : j < (samplePRMGo stream 0 0 numSamples (numSamples * 10) zones []).length := by
    rw [buildPRMGraph_nodes_eq, foldl_connect_length] at hj
    exact hj
  have hpt : ∀ k, ((BuildPRMGraph stream numSamples radius zones).Nodes.getD k
      dfltPRMNode).point = ((samplePRMGo stream 0 0 numSamples (numSamples * 10)
      zones []).getD k dfltPRMNode).point := by
    intro k
    rw [buildPRMGraph_nodes_eq, foldl_connect_getD_point]
  have hOKiff : ∀ a b : ℕ,
      prmPairOK zones radius (samplePRMGo stream 0 0 numSamples (numSamples * 10) zones [])
        (a, b) ↔
      (distance ((BuildPRMGraph stream numSamples radius zones).Nodes.getD a dfltPRMNode).point
         ((BuildPRMGraph stream numSamples radius zones).Nodes.getD b dfltPRMNode).point
           ≤ radius ∧
       ∀ zone ∈ zones, DoesEdgeIntersectPolygon
         ((BuildPRMGraph stream numSamples radius zones).Nodes.getD a dfltPRMNode).point
         ((BuildPRMGraph stream numSamples radius zones).Nodes.getD b dfltPRMNode).point
           zone = false) := by
    intro a b
    unfold prmPairOK
    rw [hpt a, hpt b]
    constructor
    · rintro ⟨h1, h2⟩
      refine ⟨h1, fun zone hz => ?_⟩
      have := List.any_eq_false.mp h2 zone hz
      simpa using this
    · rintro ⟨h1, h2⟩
      refine ⟨h1, List.any_eq_false.mpr fun zone hz => ?_⟩
      simpa using h2 zone hz
  have hfwd : j ∈ ((BuildPRMGraph stream numSamples radius zones).Nodes.getD i
      dfltPRMNode).Edges ↔
      prmPairOK zones radius (samplePRMGo stream 0 0 numSamples (numSamples * 10) zones [])
        (i, j) := by
    rw [buildPRMGraph_nodes_eq, mem_foldl_connect, hE0 i]
    simp only [List.not_mem_nil, false_or]
    constructor
    · rintro ⟨pr, hpr, hOK, hsh⟩
      rw [mem_prmPairs] at hpr
      rcases hsh with ⟨h1, h2, _⟩ | ⟨h1, h2, _⟩
      · obtain ⟨a, b⟩ := pr
        simp only at h1 h2
        rw [← h1, ← h2] at hOK
        exact hOK
      · obtain ⟨a, b⟩ := pr
        simp only at h1 h2
        exfalso
        omega
    · intro hOK
      exact ⟨(i, j), (mem_prmPairs _ _).mpr ⟨hij, hj0⟩, hOK,
        Or.inl ⟨rfl, rfl, Nat.lt_trans hij hj0⟩⟩
  have hbwd : i ∈ ((BuildPRMGraph stream numSamples radius zones).Nodes.getD j
      dfltPRMNode).Edges ↔
      prmPairOK zones radius (samplePRMGo stream 0 0 numSamples (numSamples * 10) zones [])
        (i, j) := by
    rw [buildPRMGraph_nodes_eq, mem_foldl_connect, hE0 j]
    simp only [List.not_mem_nil, false_or]
    constructor
    · rintro ⟨pr, hpr, hOK, hsh⟩
      rw [mem_prmPairs] at hpr
      rcases hsh with ⟨h1, h2, _⟩ | ⟨h1, h2, _⟩
      · obtain ⟨a, b⟩ := pr
        simp only at h1 h2
        exfalso
        omega
      · obtain ⟨a, b⟩ := pr
        simp only at h1 h2
        rw [← h1, ← h2] at hOK
        exact hOK
    · intro hOK
      exact ⟨(i, j), (mem_prmPairs _ _).mpr ⟨hij, hj0⟩, hOK,
        Or.inr ⟨rfl, rfl, hj0⟩⟩
  constructor
  · rw [hfwd, hOKiff i j]
  · rw [hfwd, hbwd]

/-- Witness for C3 amended at a two-node roadmap with no obstacles. -/
theorem buildPRMGraph_edge_iff_witness :
    1 ∈ ((BuildPRMGraph [⟨0, 0⟩, ⟨3, 4⟩] 2 10 []).Nodes.getD 0 dfltPRMNode).Edges ↔
      (distance ((BuildPRMGraph [⟨0, 0⟩, ⟨3, 4⟩] 2 10 []).Nodes.getD 0 dfltPRMNode).point
         ((BuildPRMGraph [⟨0, 0⟩, ⟨3, 4⟩] 2 10 []).Nodes.getD 1 dfltPRMNode).point ≤ 10 ∧
       ∀ zone ∈ ([] : List Polygon), DoesEdgeIntersectPolygon
         ((BuildPRMGraph [⟨0, 0⟩, ⟨3, 4⟩] 2 10 []).Nodes.getD 0 dfltPRMNode).point
         ((BuildPRMGraph [⟨0, 0⟩, ⟨3, 4⟩] 2 10 []).Nodes.getD 1 dfltPRMNode).point
           zone = false) :=
  (buildPRMGraph_edge_iff [⟨0, 0⟩, ⟨3, 4⟩] 2 10 [] 0 1 Nat.zero_lt_one
    (by rw [buildPRMGraph_nodes_eq, foldl_connect_length]; decide)).1

/-- The planar distance between (0,0) and (0,4) is 4 ≤ 10. -/
theorem distance_c3_le : distance ⟨0, 0⟩ ⟨0, 4⟩ ≤ 10 := by
  unfold distance
  dsimp only
  norm_num
  rw [show (16 : ℝ) = 4 ^ 2 by norm_num, Real.sqrt_sq (by norm_num : (0 : ℝ) ≤ 4)]
  norm_num

/-- The node list of the C3 counterexample roadmap evaluates to two nodes
joined by an edge. -/
theorem buildPRM_c3_nodes :
    (BuildPRMGraph streamC3 2 10 [quadC3]).Nodes =
      [⟨0, ⟨0, 0⟩, [1]⟩, ⟨1, ⟨0, 4⟩, [0]⟩] := by
  rw [buildPRMGraph_nodes_eq]
  have hs : samplePRMGo streamC3 0 0 2 (2 * 10) [quadC3] [] =
      [⟨0, ⟨0, 0⟩, []⟩, ⟨1, ⟨0, 4⟩, []⟩] := by
    norm_num [samplePRMGo, streamC3, quadC3, IsPointInPolygon, List.range_succ]
  rw [hs]
  have hp : prmPairs ([(⟨0, ⟨0, 0⟩, []⟩ : PRMNode), ⟨1, ⟨0, 4⟩, []⟩]).length = [(0, 1)] := by
    rfl
  rw [hp]
  rw [List.foldl_cons, List.foldl_nil]
  unfold connectPRMPair
  dsimp only
  simp only [List.getD_cons_zero, List.getD_cons_succ]
  rw [if_pos distance_c3_le, if_neg ?hno]
  case hno =>
    norm_num [DoesEdgeIntersectPolygon, DoesSegmentIntersectPolygon, DoSegmentsIntersect,
      direction, onSegment, quadC3, List.range_succ, Point.mk.injEq]
  rfl

/-- The flag produced by one endpoint-connection step. -/
theorem connectEndpoint_flag (g : PRMGraph) (zones : List Polygon) (p : Point) (pid : ℕ)
    (st : List PRMNode × Bool) (i : ℕ) :
    ((connectEndpoint g zones p pid st i).2 = true ↔
      (st.2 = true ∨ endpointOK g zones p i)) := by
  unfold connectEndpoint endpointOK
  dsimp only
  split_ifs with h1 h2
  · constructor
    · intro h
      exact Or.inl h
    · rintro (h | ⟨hd, ha⟩)
      · exact h
      · exact Bool.noConfusion (h2.symm.trans ha)
  · constructor
    · intro _
      exact Or.inr ⟨h1, Bool.not_eq_true _ ▸ eq_false_of_ne_true h2⟩
    · intro _
      rfl
  · constructor
    · intro h
      exact Or.inl h
    · rintro (h | ⟨hd, ha⟩)
      · exact h
      · exact absurd hd h1

/-- One endpoint-connection step keeps every node's ID. -/
theorem connectEndpoint_getD_ID (g : PRMGraph) (zones : List Polygon) (p : Point) (pid : ℕ)
    (st : List PRMNode × Bool) (i k : ℕ) :
    (((connectEndpoint g zones p pid st i).1).getD k dfltPRMNode).ID =
      ((st.1).getD k dfltPRMNode).ID := by
  unfold connectEndpoint
  dsimp only
  split_ifs with h1 h2
  · rfl
  · rw [pushEdge_getD_ID, pushEdge_getD_ID]
  · rfl

/-- One endpoint-connection step keeps every node's point. -/
theorem connectEndpoint_getD_point (g : PRMGraph) (zones : List Polygon) (p : Point) (pid : ℕ)
    (st : List PRMNode × Bool) (i k : ℕ) :
    (((connectEndpoint g zones p pid st i).1).getD k dfltPRMNode).point =
      ((st.1).getD k dfltPRMNode).point := by
  unfold connectEndpoint
  dsimp only
  split_ifs with h1 h2
  · rfl
  · rw [pushEdge_getD_point, pushEdge_getD_point]
  · rfl

/-- One endpoint-connection step only appends to adjacency lists. -/
theorem connectEndpoint_adj_append (g : PRMGraph) (zones : List Polygon) (p : Point) (pid : ℕ)
    (st : List PRMNode × Bool) (i k : ℕ) :
    ∃ extra, (((connectEndpoint g zones p pid st i).1).getD k dfltPRMNode).Edges =
      ((st.1).getD k dfltPRMNode).Edges ++ extra := by
  unfold connectEndpoint
  dsimp only
  split_ifs with h1 h2
  · exact ⟨[], (List.append_nil _).symm⟩
  · obtain ⟨e1, he1⟩ := pushEdge_adj_append (pushEdge st.1 pid i) i pid k
    obtain ⟨e2, he2⟩ := pushEdge_adj_append st.1 pid i k
    exact ⟨e2 ++ e1, by rw [he1, he2, List.append_assoc]⟩
  · exact ⟨[], (List.append_nil _).symm⟩

/-- Flag of a whole endpoint-connection fold. -/
theorem foldl_connectEndpoint_flag (g : PRMGraph) (zones : List Polygon) (p : Point)
    (pid : ℕ) (L : List ℕ) :
    ∀ st, ((L.foldl (connectEndpoint g zones p pid) st).2 = true ↔
      (st.2 = true ∨ ∃ i ∈ L, endpointOK g zones p i)) := by
  induction L with
  | nil => intro st; simp
  | cons i L ih =>
    intro st
    rw [List.foldl_cons, ih, connectEndpoint_flag]
    constructor
    · rintro ((h | h) | ⟨i', hi', h⟩)
      · exact Or.inl h
      · exact Or.inr ⟨i, List.mem_cons_self i L, h⟩
      · exact Or.inr ⟨i', List.mem_cons_of_mem i hi', h⟩
    · rintro (h | ⟨i', hi', h⟩)
      · exact Or.inl (Or.inl h)
      · rcases List.mem_cons.mp hi' with rfl | hi'
        · exact Or.inl (Or.inr h)
        · exact Or.inr ⟨i', hi', h⟩

/-- IDs after a whole endpoint-connection fold. -/
theorem foldl_connectEndpoint_getD_ID (g : PRMGraph) (zones : List Polygon) (p : Point)
    (pid : ℕ) (L : List ℕ) :
    ∀ st k, (((L.foldl (connectEndpoint g zones p pid) st).1).getD k dfltPRMNode).ID =
      ((st.1).getD k dfltPRMNode).ID := by
  induction L with
  | nil => intro st k; rfl
  | cons i L ih =>
    intro st k
    rw [List.foldl_cons, ih, connectEndpoint_getD_ID]

/-- Points after a whole endpoint-connection fold. -/
theorem foldl_connectEndpoint_getD_point (g : PRMGraph) (zones : List Polygon) (p : Point)
    (pid : ℕ) (L : List ℕ) :
    ∀ st k, (((L.foldl (connectEndpoint g zones p pid) st).1).getD k dfltPRMNode).point =
      ((st.1).getD k dfltPRMNode).point := by
  induction L with
  | nil => intro st k; rfl
  | cons i L ih =>
    intro st k
    rw [List.foldl_cons, ih, connectEndpoint_getD_point]

/-- Adjacency lists only grow across a whole endpoint-connection fold. -/
theorem foldl_connectEndpoint_adj_append (g : PRMGraph) (zones : List Polygon) (p : Point)
    (pid : ℕ) (L : List ℕ) :
    ∀ st k, ∃ extra,
      (((L.foldl (connectEndpoint g zones p pid) st).1).getD k dfltPRMNode).Edges =
        ((st.1).getD k dfltPRMNode).Edges ++ extra := by
  induction L with
  | nil => exact fun st k => ⟨[], (List.append_nil _).symm⟩
  | cons i L ih =>
    intro st k
    rw [List.foldl_cons]
    obtain ⟨e1, he1⟩ := ih (connectEndpoint g zones p pid st i) k
    obtain ⟨e2, he2⟩ := connectEndpoint_adj_append g zones p pid st i k
    exact ⟨e2 ++ e1, by rw [he1, he2, List.append_assoc]⟩

/-- C4 amended: CreateGraphWithStartEnd returns -1 as the start node id iff
the start point could not be connected to any roadmap node; it returns -1 as
the end node id iff the start point connected AND the end point could not be
connected --- when both endpoints fail, only the start failure is reported and
the returned end id is the fresh end node id, not -1 (see the
counterexample).  The nodes of the original roadmap keep their id and point
in the returned private copy, and their adjacency lists are only extended
(the original roadmap value is not mutated, the embedding being pure). -/
theorem createGraphWithStartEnd_result (g : PRMGraph) (start endP : Point)
    (zones : List Polygon) :
    ((g.CreateGraphWithStartEnd start endP zones).2.1 = -1 ↔
      ¬ ∃ i, i < g.Nodes.length ∧ endpointOK g zones start i) ∧
    ((g.CreateGraphWithStartEnd start endP zones).2.2 = -1 ↔
      ((∃ i, i < g.Nodes.length ∧ endpointOK g zones start i) ∧
       ¬ ∃ i, i < g.Nodes.length ∧ endpointOK g zones endP i)) ∧
    (∀ k, k < g.Nodes.length →
      (((g.CreateGraphWithStartEnd start endP zones).1.Nodes.getD k dfltPRMNode).ID =
         (g.Nodes.getD k dfltPRMNode).ID ∧
       ((g.CreateGraphWithStartEnd start endP zones).1.Nodes.getD k dfltPRMNode).point =
         (g.Nodes.getD k dfltPRMNode).point ∧
       ∃ extra, ((g.CreateGraphWithStartEnd start endP zones).1.Nodes.getD k
           dfltPRMNode).Edges = (g.Nodes.getD k dfltPRMNode).Edges ++ extra)) := by
  have hSCiff : (((List.range g.Nodes.length).foldl (connectEndpoint g zones start
      g.Nodes.length) (g.Nodes ++ [⟨g.Nodes.length, start, []⟩,
        ⟨g.Nodes.length + 1, endP, []⟩], false)).2 = true) ↔
      ∃ i, i < g.Nodes.length ∧ endpointOK g zones start i := by
    rw [foldl_connectEndpoint_flag]
    simp [List.mem_range]
  have hECiff : ∀ ns : List PRMNode, (((List.range g.Nodes.length).foldl
      (connectEndpoint g zones endP (g.Nodes.length + 1)) (ns, false)).2 = true) ↔
      ∃ i, i < g.Nodes.length ∧ endpointOK g zones endP i := by
    intro ns
    rw [foldl_connectEndpoint_flag]
    simp [List.mem_range]
  have hbase : ∀ k, k < g.Nodes.length →
      ((g.Nodes ++ [(⟨g.Nodes.length, start, []⟩ : PRMNode),
        ⟨g.Nodes.length + 1, endP, []⟩]).getD k dfltPRMNode) = g.Nodes.getD k dfltPRMNode := by
    intro k hk
    rw [List.getD_append _ _ _ _ hk]
  have hpres : ∀ k, k < g.Nodes.length →
      ((((List.range g.Nodes.length).foldl (connectEndpoint g zones endP
          (g.Nodes.length + 1)) ((((List.range g.Nodes.length).foldl (connectEndpoint g
          zones start g.Nodes.length) (g.Nodes ++ [⟨g.Nodes.length, start, []⟩,
          ⟨g.Nodes.length + 1, endP, []⟩], false))).1, false)).1.getD k dfltPRMNode).ID =
        (g.Nodes.getD k dfltPRMNode).ID ∧
       (((List.range g.Nodes.length).foldl (connectEndpoint g zones endP
          (g.Nodes.length + 1)) ((((List.range g.Nodes.length).foldl (connectEndpoint g
          zones start g.Nodes.length) (g.Nodes ++ [⟨g.Nodes.length, start, []⟩,
          ⟨g.Nodes.length + 1, endP, []⟩], false))).1, false)).1.getD k
          dfltPRMNode).point = (g.Nodes.getD k dfltPRMNode).point ∧
       ∃ extra, (((List.range g.Nodes.length).foldl (connectEndpoint g zones endP
          (g.Nodes.length + 1)) ((((List.range g.Nodes.length).foldl (connectEndpoint g
          zones start g.Nodes.length) (g.Nodes ++ [⟨g.Nodes.length, start, []⟩,
          ⟨g.Nodes.length + 1, endP, []⟩], false))).1, false)).1.getD k
          dfltPRMNode).Edges = (g.Nodes.getD k dfltPRMNode).Edges ++ extra) := by
    intro k hk
    have hid1 := foldl_connectEndpoint_getD_ID g zones endP (g.Nodes.length + 1)
      (List.range g.Nodes.length) ((((List.range g.Nodes.length).foldl (connectEndpoint g
        zones start g.Nodes.length) (g.Nodes ++ [⟨g.Nodes.length, start, []⟩,
        ⟨g.Nodes.length + 1, endP, []⟩], false))).1, false) k
    have hid2 := foldl_connectEndpoint_getD_ID g zones start g.Nodes.length
      (List.range g.Nodes.length) (g.Nodes ++ [⟨g.Nodes.length, start, []⟩,
        ⟨g.Nodes.length + 1, endP, []⟩], false) k
    have hpt1 := foldl_connectEndpoint_getD_point g zones endP (g.Nodes.length + 1)
      (List.range g.Nodes.length) ((((List.range g.Nodes.length).foldl (connectEndpoint g
        zones start g.Nodes.length) (g.Nodes ++ [⟨g.Nodes.length, start, []⟩,
        ⟨g.Nodes.length + 1, endP, []⟩], false))).1, false) k
    have hpt2 := foldl_connectEndpoint_getD_point g zones start g.Nodes.length
      (List.range g.Nodes.length) (g.Nodes ++ [⟨g.Nodes.length, start, []⟩,
        ⟨g.Nodes.length + 1, endP, []⟩], false) k
    obtain ⟨e1, he1⟩ := foldl_connectEndpoint_adj_append g zones endP
      (g.Nodes.length + 1) (List.range g.Nodes.length) ((((List.range
        g.Nodes.length).foldl (connectEndpoint g zones start g.Nodes.length)
        (g.Nodes ++ [⟨g.Nodes.length, start, []⟩,
        ⟨g.Nodes.length + 1, endP, []⟩], false))).1, false) k
    obtain ⟨e2, he2⟩ := foldl_connectEndpoint_adj_append g zones start g.Nodes.length
      (List.range g.Nodes.length) (g.Nodes ++ [⟨g.Nodes.length, start, []⟩,
        ⟨g.Nodes.length + 1, endP, []⟩], false) k
    dsimp only at hid1 hid2 hpt1 hpt2 he1 he2
    refine ⟨?_, ?_, ⟨e2 ++ e1, ?_⟩⟩
    · rw [hid1, hid2]
      exact congrArg PRMNode.ID (hbase k hk)
    · rw [hpt1, hpt2]
      exact congrArg PRMNode.point (hbase k hk)
    · rw [he1, he2, congrArg PRMNode.Edges (hbase k hk), List.append_assoc]
  unfold PRMGraph.CreateGraphWithStartEnd
  dsimp only
  by_cases hS : ∃ i, i < g.Nodes.length ∧ endpointOK g zones start i
  · have h1 : ((List.range g.Nodes.length).foldl (connectEndpoint g zones start
        g.Nodes.length) (g.Nodes ++ [⟨g.Nodes.length, start, []⟩,
        ⟨g.Nodes.length + 1, endP, []⟩], false)).2 = true := hSCiff.mpr hS
    rw [if_neg (by rw [h1]; decide)]
    by_cases hE : ∃ i, i < g.Nodes.length ∧ endpointOK g zones endP i
    · have h2 : ((List.range g.Nodes.length).foldl (connectEndpoint g zones endP
          (g.Nodes.length + 1)) (((List.range g.Nodes.length).foldl (connectEndpoint g
          zones start g.Nodes.length) (g.Nodes ++ [⟨g.Nodes.length, start, []⟩,
          ⟨g.Nodes.length + 1, endP, []⟩], false)).1, false)).2 = true :=
        (hECiff _).mpr hE
      rw [if_neg (by rw [h2]; decide)]
      refine ⟨?_, ?_, ?_⟩
      · constructor
        · intro hc
          exfalso
          dsimp only at hc
          omega
        · intro hc
          exact absurd hS hc
      · constructor
        · intro hc
          exfalso
          dsimp only at hc
          omega
        · rintro ⟨_, hc⟩
          exact absurd hE hc
      · intro k hk
        exact hpres k hk
    · have h2 : ((List.range g.Nodes.length).foldl (connectEndpoint g zones endP
          (g.Nodes.length + 1)) (((List.range g.Nodes.length).foldl (connectEndpoint g
          zones start g.Nodes.length) (g.Nodes ++ [⟨g.Nodes.length, start, []⟩,
          ⟨g.Nodes.length + 1, endP, []⟩], false)).1, false)).2 = false := by
        cases hfs : ((List.range g.Nodes.length).foldl (connectEndpoint g zones endP
          (g.Nodes.length + 1)) (((List.range g.Nodes.length).foldl (connectEndpoint g
          zones start g.Nodes.length) (g.Nodes ++ [⟨g.Nodes.length, start, []⟩,
          ⟨g.Nodes.length + 1, endP, []⟩], false)).1, false)).2 with
        | false => rfl
        | true => exact absurd ((hECiff _).mp hfs) hE
      rw [if_pos h2]
      refine ⟨?_, ?_, ?_⟩
      · constructor
        · intro hc
          exfalso
          dsimp only at hc
          omega
        · intro hc
          exact absurd hS hc
      · constructor
        · intro _
          exact ⟨hS, hE⟩
        · intro _
          rfl
      · intro k hk
        exact hpres k hk
  · have h1 : ((List.range g.Nodes.length).foldl (connectEndpoint g zones start
        g.Nodes.length) (g.Nodes ++ [⟨g.Nodes.length, start, []⟩,
        ⟨g.Nodes.length + 1, endP, []⟩], false)).2 = false := by
      cases hfs : ((List.range g.Nodes.length).foldl (connectEndpoint g zones start
        g.Nodes.length) (g.Nodes ++ [⟨g.Nodes.length, start, []⟩,
        ⟨g.Nodes.length + 1, endP, []⟩], false)).2 with
      | false => rfl
      | true => exact absurd (hSCiff.mp hfs) hS
    rw [if_pos h1]
    refine ⟨?_, ?_, ?_⟩
    · constructor
      · intro _
        exact hS
      · intro _
        rfl
    · constructor
      · intro hc
        exfalso
        dsimp only at hc
        omega
      · rintro ⟨hc, _⟩
        exact absurd hc hS
    · intro k hk
      exact hpres k hk

/-- C4 counterexample: on an empty roadmap neither the start point (0,0) nor
the end point (5,5) can be connected to any node, yet the call reports the
failure only for the start (start id -1) while the returned end id is the
fresh end node id 1, not -1, refuting the claim that each endpoint's failure
is reported specifically when both fail. -/
theorem createGraphWithStartEnd_counterexample :
    (PRMGraph.CreateGraphWithStartEnd ⟨[], ⟨0, 0, 0, 0⟩, 0, 1⟩ ⟨0, 0⟩ ⟨5, 5⟩ []).2.1 = -1 ∧
    (PRMGraph.CreateGraphWithStartEnd ⟨[], ⟨0, 0, 0, 0⟩, 0, 1⟩ ⟨0, 0⟩ ⟨5, 5⟩ []).2.2 = 1 ∧
    (⟨[], ⟨0, 0, 0, 0⟩, 0, 1⟩ : PRMGraph).Nodes.length = 0 :=
  ⟨rfl, rfl, rfl⟩

/-- C3 counterexample: with sample stream streamC3 and the quadrilateral
obstacle quadC3, BuildPRMGraph inserts the edge between nodes 0 (point
(0,0)) and 1 (point (0,4)) although IsPathClear fails for that segment (its
midpoint (0,2) is strictly inside the obstacle), refuting the claim that an
edge is inserted only if the path-clear test succeeds. -/
theorem buildPRMGraph_ipc_counterexample :
    1 ∈ ((BuildPRMGraph streamC3 2 10 [quadC3]).Nodes.getD 0 dfltPRMNode).Edges ∧
    ((BuildPRMGraph streamC3 2 10 [quadC3]).Nodes.getD 0 dfltPRMNode).point = ⟨0, 0⟩ ∧
    ((BuildPRMGraph streamC3 2 10 [quadC3]).Nodes.getD 1 dfltPRMNode).point = ⟨0, 4⟩ ∧
    IsPathClear ⟨0, 0⟩ ⟨0, 4⟩ [quadC3] = false := by
  rw [buildPRM_c3_nodes]
  refine ⟨by simp, by simp, by simp, ?_⟩
  norm_num [IsPathClear, DoesSegmentIntersectPolygon, DoSegmentsIntersect, IsPointInPolygon,
    direction, onSegment, quadC3, List.range_succ, Point.mk.injEq]


/-- Planar distance is symmetric. -/
theorem Point.Distance_symm (p q : Point) : p.Distance q = q.Distance p := by
  unfold Point.Distance
  dsimp only
  congr 1
  push_cast
  ring

/-- Inserting an absent key appends the binding. -/
theorem insertKey_absent {β : Type _} (acc : List (ℕ × β)) (k : ℕ) (v : β)
    (h : lookupKey acc k = none) : insertKey acc k v = acc ++ [(k, v)] := by
  induction acc with
  | nil => rfl
  | cons hd rest ih =>
    obtain ⟨a, w⟩ := hd
    unfold insertKey
    unfold lookupKey at h
    by_cases hak : a = k
    · rw [if_pos hak] at h
      exact absurd h (Option.some_ne_none w)
    · rw [if_neg hak] at h
      rw [if_neg hak, ih h]
      rfl

/-- Lookup distributes over append. -/
theorem lookupKey_append {β : Type _} (l1 l2 : List (ℕ × β)) (j : ℕ) :
    lookupKey (l1 ++ l2) j =
      match lookupKey l1 j with
      | some v => some v
      | none => lookupKey l2 j := by
  induction l1 with
  | nil => rfl
  | cons hd rest ih =>
    obtain ⟨a, w⟩ := hd
    by_cases hak : a = j
    · show (if a = j then some w else lookupKey (rest ++ l2) j) =
        match (if a = j then some w else lookupKey rest j) with
        | some v => some v
        | none => lookupKey l2 j
      rw [if_pos hak, if_pos hak]
    · show (if a = j then some w else lookupKey (rest ++ l2) j) =
        match (if a = j then some w else lookupKey rest j) with
        | some v => some v
        | none => lookupKey l2 j
      rw [if_neg hak, if_neg hak, ih]

/-- The insertKey fold of ConvertToGraph appends one binding per node when
all node ids are fresh and pairwise distinct. -/
theorem foldl_insertKey_eq_map {β : Type _} (f : PRMNode → β) :
    ∀ (ns : List PRMNode) (acc : List (ℕ × β)),
      (∀ n ∈ ns, lookupKey acc n.ID = none) →
      List.Pairwise (fun a b : PRMNode => a.ID ≠ b.ID) ns →
      ns.foldl (fun a node => insertKey a node.ID (f node)) acc =
        acc ++ ns.map (fun n => (n.ID, f n)) := by
  intro ns
  induction ns with
  | nil => intro acc h hp; simp
  | cons n rest ih =>
    intro acc h hp
    rw [List.foldl_cons, insertKey_absent acc n.ID (f n) (h n (List.mem_cons_self n rest))]
    rw [ih (acc ++ [(n.ID, f n)]) ?habs (List.pairwise_cons.mp hp).2]
    · simp
    · intro m hm
      rw [lookupKey_append]
      rw [h m (List.mem_cons_of_mem n hm)]
      have hne : n.ID ≠ m.ID := (List.pairwise_cons.mp hp).1 m hm
      unfold lookupKey
      rw [if_neg hne]
      rfl

/-- Lookup in the mapped binding list of a well-indexed node segment. -/
theorem lookupKey_map_ID {β : Type _} (f : PRMNode → β) :
    ∀ (ns : List PRMNode) (base j : ℕ),
      (∀ k, k < ns.length → (ns.getD k dfltPRMNode).ID = base + k) →
      lookupKey (ns.map (fun n => (n.ID, f n))) j =
        if base ≤ j ∧ j < base + ns.length then
          some (f (ns.getD (j - base) dfltPRMNode))
        else none := by
  intro ns
  induction ns with
  | nil =>
    intro base j hw
    show (none : Option β) = _
    rw [if_neg ?hcon]
    case hcon =>
      intro hc
      simp only [List.length_nil, Nat.add_zero] at hc
      omega
  | cons n rest ih =>
    intro base j hw
    have hn : n.ID = base := by
      have := hw 0 (Nat.succ_pos rest.length)
      simpa using this
    have hwrest : ∀ k, k < rest.length → (rest.getD k dfltPRMNode).ID = (base + 1) + k := by
      intro k hk
      have := hw (k + 1) (by simpa using Nat.succ_lt_succ hk)
      simpa [Nat.add_assoc, Nat.add_comm, Nat.add_left_comm] using this
    simp only [List.map_cons]
    unfold lookupKey
    by_cases hbj : n.ID = j
    · rw [if_pos hbj]
      simp only [List.length_cons]
      rw [hn] at hbj
      rw [if_pos (show base ≤ j ∧ j < base + (rest.length + 1) by omega)]
      have hz : j - base = 0 := by omega
      rw [hz]
      rfl
    · rw [if_neg hbj]
      rw [ih (base + 1) j hwrest]
      rw [hn] at hbj
      simp only [List.length_cons]
      by_cases hcond : base ≤ j ∧ j < base + (rest.length + 1)
      · rw [if_pos (show base + 1 ≤ j ∧ j < base + 1 + rest.length by omega), if_pos hcond]
        obtain ⟨m, hm⟩ : ∃ m, j - base = m + 1 := ⟨j - base - 1, by omega⟩
        rw [show j - (base + 1) = m from by omega, hm]
        rfl
      · rw [if_neg (show ¬(base + 1 ≤ j ∧ j < base + 1 + rest.length) by omega), if_neg hcond]

/-- Well-indexed node lists have pairwise distinct ids. -/
theorem wellIndexed_pairwise (ns : List PRMNode) (hw : WellIndexed ns) :
    List.Pairwise (fun a b : PRMNode => a.ID ≠ b.ID) ns := by
  rw [List.pairwise_iff_getElem]
  intro i j hi hj hij
  have hgi : ns[i] = ns.getD i dfltPRMNode := by
    rw [List.getD_eq_getElem?_getD, List.getElem?_eq_getElem hi]
    rfl
  have hgj : ns[j] = ns.getD j dfltPRMNode := by
    rw [List.getD_eq_getElem?_getD, List.getElem?_eq_getElem hj]
    rfl
  rw [hgi, hgj, hw i hi, hw j hj]
  omega

/-- One endpoint-connection step keeps the node-list length. -/
theorem connectEndpoint_length (g : PRMGraph) (zones : List Polygon) (p : Point) (pid : ℕ)
    (st : List PRMNode × Bool) (i : ℕ) :
    ((connectEndpoint g zones p pid st i).1).length = st.1.length := by
  unfold connectEndpoint
  dsimp only
  split_ifs with h1 h2
  · rfl
  · rw [pushEdge_length, pushEdge_length]
  · rfl

/-- The whole endpoint-connection fold keeps the node-list length. -/
theorem foldl_connectEndpoint_length (g : PRMGraph) (zones : List Polygon) (p : Point)
    (pid : ℕ) (L : List ℕ) :
    ∀ st, ((L.foldl (connectEndpoint g zones p pid) st).1).length = st.1.length := by
  induction L with
  | nil => intro st; rfl
  | cons i L ih =>
    intro st
    rw [List.foldl_cons, ih, connectEndpoint_length]

/-- Adjacency membership after one endpoint-connection step. -/
theorem mem_connectEndpoint_adj (g : PRMGraph) (zones : List Polygon) (p : Point) (pid : ℕ)
    (st : List PRMNode × Bool) (i k b : ℕ) :
    b ∈ (((connectEndpoint g zones p pid st i).1).getD k dfltPRMNode).Edges ↔
      (b ∈ ((st.1).getD k dfltPRMNode).Edges ∨
        (endpointOK g zones p i ∧
          ((k = pid ∧ b = i ∧ pid < st.1.length) ∨
           (k = i ∧ b = pid ∧ i < st.1.length)))) := by
  unfold connectEndpoint endpointOK
  dsimp only
  split_ifs with h1 h2
  · rw [h2]
    simp
  · rw [mem_pushEdge_adj, mem_pushEdge_adj, pushEdge_length]
    have hOK : (zones.any fun polygon => DoesEdgeIntersectPolygon p
        ((g.Nodes.getD i dfltPRMNode)).point polygon) = false :=
      Bool.not_eq_true _ ▸ eq_false_of_ne_true h2
    simp only [h1, hOK, true_and, and_true]
    tauto
  · have h1' : ¬ distance p (g.Nodes[i]?.getD dfltPRMNode).point ≤ g.ConnectionRadius := by
      simpa [List.getD] using h1
    simp [h1']

/-- Adjacency membership after a whole endpoint-connection fold. -/
theorem mem_foldl_connectEndpoint (g : PRMGraph) (zones : List Polygon) (p : Point)
    (pid : ℕ) (L : List ℕ) :
    ∀ st k b, b ∈ (((L.foldl (connectEndpoint g zones p pid) st).1).getD k dfltPRMNode).Edges ↔
      (b ∈ ((st.1).getD k dfltPRMNode).Edges ∨
        ∃ i ∈ L, endpointOK g zones p i ∧
          ((k = pid ∧ b = i ∧ pid < st.1.length) ∨
           (k = i ∧ b = pid ∧ i < st.1.length))) := by
  induction L with
  | nil => intro st k b; simp
  | cons i L ih =>
    intro st k b
    rw [List.foldl_cons]
    rw [ih (connectEndpoint g zones p pid st i) k b]
    rw [mem_connectEndpoint_adj]
    rw [connectEndpoint_length]
    constructor
    · rintro ((h | h) | ⟨i', hi', h⟩)
      · exact Or.inl h
      · exact Or.inr ⟨i, List.mem_cons_self i L, h⟩
      · exact Or.inr ⟨i', List.mem_cons_of_mem i hi', h⟩
    · rintro (h | ⟨i', hi', h⟩)
      · exact Or.inl (Or.inl h)
      · rcases List.mem_cons.mp hi' with rfl | hi'
        · exact Or.inl (Or.inr h)
        · exact Or.inr ⟨i', hi', h⟩

/-- The node lookup map of ConvertToGraph on a well-indexed roadmap. -/
theorem convertToGraph_lookup_nodes (g : PRMGraph) (hw : WellIndexed g.Nodes) (j : ℕ) :
    lookupKey (g.ConvertToGraph).Nodes j =
      if j < g.Nodes.length then some ((g.Nodes.getD j dfltPRMNode).point) else none := by
  unfold PRMGraph.ConvertToGraph
  dsimp only
  rw [foldl_insertKey_eq_map (fun node => node.point) g.Nodes [] (fun n _ => rfl)
    (wellIndexed_pairwise g.Nodes hw)]
  rw [List.nil_append]
  rw [lookupKey_map_ID (fun node => node.point) g.Nodes 0 j
    (fun k hk => by rw [Nat.zero_add]; exact hw k hk)]
  by_cases hj : j < g.Nodes.length
  · rw [if_pos (by omega : 0 ≤ j ∧ j < 0 + g.Nodes.length), if_pos hj, Nat.sub_zero]
  · rw [if_neg (by omega : ¬(0 ≤ j ∧ j < 0 + g.Nodes.length)), if_neg hj]

/-- The edge lookup map of ConvertToGraph on a well-indexed roadmap. -/
theorem convertToGraph_lookup_edges (g : PRMGraph) (hw : WellIndexed g.Nodes) (j : ℕ) :
    lookupKey (g.ConvertToGraph).Edges j =
      if j < g.Nodes.length then
        some (((g.Nodes.getD j dfltPRMNode).Edges).map (fun neighborID =>
          (⟨neighborID, (g.Nodes.getD j dfltPRMNode).point.Distance
            (g.Nodes.getD neighborID dfltPRMNode).point⟩ : Edge)))
      else none := by
  unfold PRMGraph.ConvertToGraph
  dsimp only
  rw [foldl_insertKey_eq_map (fun node => node.Edges.map (fun neighborID =>
      (⟨neighborID, node.point.Distance (g.Nodes.getD neighborID
        dfltPRMNode).point⟩ : Edge))) g.Nodes [] (fun n _ => rfl)
    (wellIndexed_pairwise g.Nodes hw)]
  rw [List.nil_append]
  rw [lookupKey_map_ID (fun node => node.Edges.map (fun neighborID =>
      (⟨neighborID, node.point.Distance (g.Nodes.getD neighborID
        dfltPRMNode).point⟩ : Edge))) g.Nodes 0 j
    (fun k hk => by rw [Nat.zero_add]; exact hw k hk)]
  by_cases hj : j < g.Nodes.length
  · rw [if_pos (by omega : 0 ≤ j ∧ j < 0 + g.Nodes.length), if_pos hj, Nat.sub_zero]
  · rw [if_neg (by omega : ¬(0 ≤ j ∧ j < 0 + g.Nodes.length)), if_neg hj]

/-- Edge presence in a converted roadmap graph. -/
theorem convertToGraph_hasEdge_iff (g : PRMGraph) (hw : WellIndexed g.Nodes)
    (a b : ℕ) (c : ℝ) :
    (g.ConvertToGraph).hasEdge a b c ↔
      (a < g.Nodes.length ∧ b ∈ (g.Nodes.getD a dfltPRMNode).Edges ∧
        c = (g.Nodes.getD a dfltPRMNode).point.Distance (g.Nodes.getD b dfltPRMNode).point) := by
  unfold Graph.hasEdge Graph.edgesOf
  rw [convertToGraph_lookup_edges g hw a]
  by_cases ha : a < g.Nodes.length
  · rw [if_pos ha]
    simp only [Option.getD_some, List.mem_map, Edge.mk.injEq]
    constructor
    · rintro ⟨nb, hnb, rfl, rfl⟩
      exact ⟨ha, hnb, rfl⟩
    · rintro ⟨_, hb, rfl⟩
      exact ⟨b, hb, rfl, rfl⟩
  · rw [if_neg ha]
    simp [ha]

/-- A well-indexed roadmap with symmetric in-range adjacency converts to a
graph with a symmetric weighted edge relation. -/
theorem convertToGraph_symm (g : PRMGraph) (hw : WellIndexed g.Nodes)
    (hs : AdjSymm g.Nodes) (hr : EdgesInRange g.Nodes) (a b : ℕ) (c : ℝ) :
    (g.ConvertToGraph).hasEdge a b c ↔ (g.ConvertToGraph).hasEdge b a c := by
  have aux : ∀ x y : ℕ, (g.ConvertToGraph).hasEdge x y c → (g.ConvertToGraph).hasEdge y x c := by
    intro x y hxy
    rw [convertToGraph_hasEdge_iff g hw] at hxy
    rw [convertToGraph_hasEdge_iff g hw]
    obtain ⟨hx, hy, hc⟩ := hxy
    have hylen := hr x hx y hy
    exact ⟨hylen, (hs x y hx hylen).mp hy, by rw [hc, Point.Distance_symm]⟩
  exact ⟨aux a b, aux b a⟩

/-- The roadmaps produced by BuildPRMGraph are well indexed with symmetric,
in-range adjacency. -/
theorem buildPRMGraph_invariants (stream : List Point) (numSamples : ℕ) (radius : ℝ)
    (zones : List Polygon) :
    WellIndexed (BuildPRMGraph stream numSamples radius zones).Nodes ∧
    AdjSymm (BuildPRMGraph stream numSamples radius zones).Nodes ∧
    EdgesInRange (BuildPRMGraph stream numSamples radius zones).Nodes := by
  have hsinv := samplePRMGo_invariant stream numSamples (numSamples * 10) zones 0 []
    (fun k hk => absurd hk (Nat.not_lt_zero k)) (fun k => rfl)
  simp only [List.length_nil] at hsinv
  obtain ⟨hID0, hE0⟩ := hsinv
  refine ⟨?_, ?_, ?_⟩
  · intro k hk
    rw [buildPRMGraph_nodes_eq] at hk ⊢
    rw [foldl_connect_getD_ID]
    rw [foldl_connect_length] at hk
    exact hID0 k hk
  · intro i j hi hj
    rw [buildPRMGraph_nodes_eq] at hi hj ⊢
    rw [foldl_connect_length] at hi hj
    rw [mem_foldl_connect, mem_foldl_connect, hE0 i, hE0 j]
    simp only [List.not_mem_nil, false_or]
    constructor
    · rintro ⟨pr, hpr, hOK, hsh⟩
      have hb := (mem_prmPairs _ _).mp hpr
      exact ⟨pr, hpr, hOK, by omega⟩
    · rintro ⟨pr, hpr, hOK, hsh⟩
      have hb := (mem_prmPairs _ _).mp hpr
      exact ⟨pr, hpr, hOK, by omega⟩
  · intro i hi b hb
    rw [buildPRMGraph_nodes_eq] at hi hb ⊢
    rw [foldl_connect_length] at hi ⊢
    rw [mem_foldl_connect, hE0 i] at hb
    simp only [List.not_mem_nil, false_or] at hb
    obtain ⟨pr, hpr, hOK, hsh⟩ := hb
    rw [mem_prmPairs] at hpr
    rcases hsh with ⟨h1, h2, h3⟩ | ⟨h1, h2, h3⟩
    · omega
    · omega

/-- The private copy returned by CreateGraphWithStartEnd has the two fresh
endpoint nodes appended and then only endpoint connections added. -/
theorem createGraphWithStartEnd_nodes_eq (g : PRMGraph) (start endP : Point)
    (zones : List Polygon) :
    ((g.CreateGraphWithStartEnd start endP zones).1).Nodes =
      ((List.range g.Nodes.length).foldl (connectEndpoint g zones endP (g.Nodes.length + 1))
        ((((List.range g.Nodes.length).foldl (connectEndpoint g zones start g.Nodes.length)
          (g.Nodes ++ [⟨g.Nodes.length, start, []⟩, ⟨g.Nodes.length + 1, endP, []⟩],
            false))).1, false)).1 := by
  unfold PRMGraph.CreateGraphWithStartEnd
  dsimp only
  split_ifs <;> rfl

/-- Adjacency membership in the augmented roadmap of CreateGraphWithStartEnd. -/
theorem mem_createGraphWithStartEnd_adj (g : PRMGraph) (start endP : Point)
    (zones : List Polygon) (k b : ℕ) :
    b ∈ ((((g.CreateGraphWithStartEnd start endP zones).1).Nodes).getD k dfltPRMNode).Edges ↔
      (b ∈ ((g.Nodes ++ [(⟨g.Nodes.length, start, []⟩ : PRMNode),
          ⟨g.Nodes.length + 1, endP, []⟩]).getD k dfltPRMNode).Edges ∨
       (∃ i, i < g.Nodes.length ∧ endpointOK g zones start i ∧
         ((k = g.Nodes.length ∧ b = i) ∨ (k = i ∧ b = g.Nodes.length))) ∨
       (∃ i, i < g.Nodes.length ∧ endpointOK g zones endP i ∧
         ((k = g.Nodes.length + 1 ∧ b = i) ∨ (k = i ∧ b = g.Nodes.length + 1)))) := by
  rw [createGraphWithStartEnd_nodes_eq]
  rw [mem_foldl_connectEndpoint]
  dsimp only
  rw [mem_foldl_connectEndpoint]
  dsimp only
  rw [foldl_connectEndpoint_length]
  dsimp only
  have hbl : (g.Nodes ++ [(⟨g.Nodes.length, start, []⟩ : PRMNode),
      ⟨g.Nodes.length + 1, endP, []⟩]).length = g.Nodes.length + 2 := by
    simp
  rw [hbl]
  simp only [List.mem_range]
  constructor
  · rintro ((h | ⟨i, hi, hOK, hsh⟩) | ⟨i, hi, hOK, hsh⟩)
    · exact Or.inl h
    · exact Or.inr (Or.inl ⟨i, hi, hOK, by tauto⟩)
    · exact Or.inr (Or.inr ⟨i, hi, hOK, by tauto⟩)
  · rintro (h | ⟨i, hi, hOK, hsh⟩ | ⟨i, hi, hOK, hsh⟩)
    · exact Or.inl (Or.inl h)
    · refine Or.inl (Or.inr ⟨i, hi, hOK, ?_⟩)
      rcases hsh with ⟨h1, h2⟩ | ⟨h1, h2⟩
      · exact Or.inl ⟨h1, h2, by omega⟩
      · exact Or.inr ⟨h1, h2, by omega⟩
    · refine Or.inr ⟨i, hi, hOK, ?_⟩
      rcases hsh with ⟨h1, h2⟩ | ⟨h1, h2⟩
      · exact Or.inl ⟨h1, h2, by omega⟩
      · exact Or.inr ⟨h1, h2, by omega⟩

/-- CreateGraphWithStartEnd preserves the roadmap invariants. -/
theorem createGraphWithStartEnd_invariants (g : PRMGraph) (start endP : Point)
    (zones : List Polygon) (hw : WellIndexed g.Nodes) (hs : AdjSymm g.Nodes)
    (hr : EdgesInRange g.Nodes) :
    WellIndexed ((g.CreateGraphWithStartEnd start endP zones).1).Nodes ∧
    AdjSymm ((g.CreateGraphWithStartEnd start endP zones).1).Nodes ∧
    EdgesInRange ((g.CreateGraphWithStartEnd start endP zones).1).Nodes := by
  have hbl : (g.Nodes ++ [(⟨g.Nodes.length, start, []⟩ : PRMNode),
      ⟨g.Nodes.length + 1, endP, []⟩]).length = g.Nodes.length + 2 := by
    simp
  have hlen : (((g.CreateGraphWithStartEnd start endP zones).1).Nodes).length =
      g.Nodes.length + 2 := by
    rw [createGraphWithStartEnd_nodes_eq, foldl_connectEndpoint_length]
    dsimp only
    rw [foldl_connectEndpoint_length]
    exact hbl
  have hbase_adj : ∀ k, ((g.Nodes ++ [(⟨g.Nodes.length, start, []⟩ : PRMNode),
      ⟨g.Nodes.length + 1, endP, []⟩]).getD k dfltPRMNode).Edges =
      if k < g.Nodes.length then (g.Nodes.getD k dfltPRMNode).Edges else [] := by
    intro k
    by_cases hk : k < g.Nodes.length
    · rw [List.getD_append _ _ _ _ hk, if_pos hk]
    · rw [List.getD_append_right _ _ _ _ (Nat.le_of_not_lt hk), if_neg hk]
      have : k - g.Nodes.length = 0 ∨ k - g.Nodes.length = 1 ∨ 2 ≤ k - g.Nodes.length := by
        omega
      rcases this with h | h | h
      · rw [h]
        rfl
      · rw [h]
        rfl
      · obtain ⟨m, hm⟩ : ∃ m, k - g.Nodes.length = m + 2 := ⟨k - g.Nodes.length - 2, by omega⟩
        rw [hm]
        simp [dfltPRMNode]
  refine ⟨?_, ?_, ?_⟩
  · intro k hk
    rw [hlen] at hk
    rw [createGraphWithStartEnd_nodes_eq, foldl_connectEndpoint_getD_ID]
    dsimp only
    rw [foldl_connectEndpoint_getD_ID]
    dsimp only
    by_cases hk' : k < g.Nodes.length
    · rw [List.getD_append _ _ _ _ hk']
      exact hw k hk'
    · rcases (by omega : k = g.Nodes.length ∨ k = g.Nodes.length + 1) with rfl | rfl
      · rw [List.getD_append_right _ _ _ _ (Nat.le_refl _), Nat.sub_self]
        rfl
      · rw [List.getD_append_right _ _ _ _ (by omega)]
        rw [show g.Nodes.length + 1 - g.Nodes.length = 1 from by omega]
        rfl
  · intro i j hi hj
    rw [hlen] at hi hj
    rw [mem_createGraphWithStartEnd_adj, mem_createGraphWithStartEnd_adj]
    rw [hbase_adj i, hbase_adj j]
    constructor
    · rintro (h | h | h)
      · by_cases hi' : i < g.Nodes.length
        · rw [if_pos hi'] at h
          have hj' : j < g.Nodes.length := hr i hi' j h
          rw [if_pos hj']
          exact Or.inl ((hs i j hi' hj').mp h)
        · rw [if_neg hi'] at h
          exact absurd h (List.not_mem_nil j)
      · obtain ⟨x, hx, hOK, hsh⟩ := h
        exact Or.inr (Or.inl ⟨x, hx, hOK, by tauto⟩)
      · obtain ⟨x, hx, hOK, hsh⟩ := h
        exact Or.inr (Or.inr ⟨x, hx, hOK, by tauto⟩)
    · rintro (h | h | h)
      · by_cases hj' : j < g.Nodes.length
        · rw [if_pos hj'] at h
          have hi' : i < g.Nodes.length := hr j hj' i h
          rw [if_pos hi']
          exact Or.inl ((hs j i hj' hi').mp h)
        · rw [if_neg hj'] at h
          exact absurd h (List.not_mem_nil i)
      · obtain ⟨x, hx, hOK, hsh⟩ := h
        exact Or.inr (Or.inl ⟨x, hx, hOK, by tauto⟩)
      · obtain ⟨x, hx, hOK, hsh⟩ := h
        exact Or.inr (Or.inr ⟨x, hx, hOK, by tauto⟩)
  · intro i hi b hb
    rw [hlen] at hi ⊢
    rw [mem_createGraphWithStartEnd_adj, hbase_adj i] at hb
    rcases hb with h | h | h
    · by_cases hi' : i < g.Nodes.length
      · rw [if_pos hi'] at h
        exact Nat.lt_of_lt_of_le (hr i hi' b h) (by omega)
      · rw [if_neg hi'] at h
        exact absurd h (List.not_mem_nil b)
    · obtain ⟨x, hx, hOK, hsh⟩ := h
      rcases hsh with ⟨h1, h2⟩ | ⟨h1, h2⟩ <;> omega
    · obtain ⟨x, hx, hOK, hsh⟩ := h
      rcases hsh with ⟨h1, h2⟩ | ⟨h1, h2⟩ <;> omega

/-- C8: every graph produced by BuildVisibilityGraph, and every graph
produced by ConvertToGraph from a roadmap built by BuildPRMGraph or spliced
by CreateGraphWithStartEnd, has a symmetric edge relation with equal costs
in both directions; in the visibility builder this holds even in the
degenerate node-ceiling fallback (which inserts the direct start-end edge
in both directions). -/
theorem graphs_edge_symmetric :
    (∀ (start end_ : Point) (zones : List Polygon) (i j : ℕ) (c : ℝ),
      (BuildVisibilityGraph start end_ zones).hasEdge i j c ↔
        (BuildVisibilityGraph start end_ zones).hasEdge j i c) ∧
    (∀ (stream : List Point) (numSamples : ℕ) (radius : ℝ) (zones : List Polygon)
      (i j : ℕ) (c : ℝ),
      ((BuildPRMGraph stream numSamples radius zones).ConvertToGraph).hasEdge i j c ↔
        ((BuildPRMGraph stream numSamples radius zones).ConvertToGraph).hasEdge j i c) ∧
    (∀ (stream : List Point) (numSamples : ℕ) (radius : ℝ) (zones : List Polygon)
      (start endP : Point) (zones2 : List Polygon) (i j : ℕ) (c : ℝ),
      ((((BuildPRMGraph stream numSamples radius zones).CreateGraphWithStartEnd
          start endP zones2).1).ConvertToGraph).hasEdge i j c ↔
        ((((BuildPRMGraph stream numSamples radius zones).CreateGraphWithStartEnd
          start endP zones2).1).ConvertToGraph).hasEdge j i c) := by
  refine ⟨?_, ?_, ?_⟩
  · intro start end_ zones i j c
    exact buildVisibilityGraph_symm start end_ zones i j c
  · intro stream numSamples radius zones i j c
    obtain ⟨hw, hs, hr⟩ := buildPRMGraph_invariants stream numSamples radius zones
    exact convertToGraph_symm _ hw hs hr i j c
  · intro stream numSamples radius zones start endP zones2 i j c
    obtain ⟨hw, hs, hr⟩ := buildPRMGraph_invariants stream numSamples radius zones
    obtain ⟨hw2, hs2, hr2⟩ := createGraphWithStartEnd_invariants _ start endP zones2 hw hs hr
    exact convertToGraph_symm _ hw2 hs2 hr2 i j c

/-- range' 1 over a successor splits at the top. -/
theorem range'_one_concat (m : ℕ) : List.range' 1 (m + 1) = List.range' 1 m ++ [m + 1] := by
  rw [List.range'_concat]
  simp [Nat.add_comm]

/-- One unfolding step of the deviation scan. -/
theorem scanMax_succ (d : ℕ → ℝ) (m : ℕ) :
    scanMax d (m + 1) =
      if d (m + 1) > (scanMax d m).2 then (m + 1, d (m + 1)) else scanMax d m := by
  unfold scanMax
  rw [range'_one_concat, List.foldl_append, List.foldl_cons, List.foldl_nil]

/-- Behaviour of the deviation scan: the running maximum is nonnegative, the
index stays in range, a nonzero result is witnessed at its index, every
scanned value is dominated, and values before the chosen index are strictly
below the maximum (first-strict-maximum rule). -/
theorem scanMax_spec (d : ℕ → ℝ) (m : ℕ) :
    0 ≤ (scanMax d m).2 ∧
    (scanMax d m).1 ≤ m ∧
    (((scanMax d m).1 = 0 ∧ (scanMax d m).2 = 0) ∨
      (1 ≤ (scanMax d m).1 ∧ d (scanMax d m).1 = (scanMax d m).2)) ∧
    (∀ i, 1 ≤ i → i ≤ m → d i ≤ (scanMax d m).2) ∧
    (∀ j, 1 ≤ j → j < (scanMax d m).1 → d j < (scanMax d m).2) := by
  induction m with
  | zero =>
    refine ⟨le_refl 0, Nat.le_refl 0, Or.inl ⟨rfl, rfl⟩, ?_, ?_⟩
    · intro i h1 h0
      omega
    · intro j h1 h0
      have : (scanMax d 0).1 = 0 := rfl
      omega
  | succ m ih =>
    obtain ⟨ih0, ih1, ih2, ih3, ih4⟩ := ih
    rw [scanMax_succ]
    by_cases hgt : d (m + 1) > (scanMax d m).2
    · rw [if_pos hgt]
      refine ⟨le_of_lt (lt_of_le_of_lt ih0 hgt), Nat.le_refl _, Or.inr ⟨by omega, rfl⟩, ?_, ?_⟩
      · intro i h1 him
        rcases Nat.lt_or_ge i (m + 1) with hi | hi
        · exact le_of_lt (lt_of_le_of_lt (ih3 i h1 (by omega)) hgt)
        · have : i = m + 1 := by omega
          rw [this]
      · intro j h1 hj
        have hjm : j ≤ m := by
          simpa using Nat.lt_succ_iff.mp hj
        exact lt_of_le_of_lt (ih3 j h1 hjm) hgt
    · rw [if_neg hgt]
      refine ⟨ih0, Nat.le_succ_of_le ih1, ih2, ?_, ih4⟩
      intro i h1 him
      rcases Nat.lt_or_ge i (m + 1) with hi | hi
      · exact ih3 i h1 (by omega)
      · have : i = m + 1 := by omega
        rw [this]
        exact le_of_not_lt hgt

/-- Determination of the deviation scan from a first-strict-maximum
profile. -/
theorem scanMax_eq (d : ℕ → ℝ) (m k : ℕ) (v : ℝ) (hk1 : 1 ≤ k) (hkm : k ≤ m)
    (hv : d k = v) (hvpos : 0 < v)
    (hlt : ∀ q, 1 ≤ q → q < k → d q < v)
    (hle : ∀ q, k ≤ q → q ≤ m → d q ≤ v) :
    scanMax d m = (k, v) := by
  induction m with
  | zero => omega
  | succ m ih =>
    rw [scanMax_succ]
    rcases Nat.lt_or_ge m k with hmk | hmk
    · have hk : k = m + 1 := by omega
      subst hk
      have hgt : d (m + 1) > (scanMax d m).2 := by
        obtain ⟨h0, h1, h2, h3, h4⟩ := scanMax_spec d m
        rcases h2 with ⟨hz1, hz2⟩ | ⟨hpos, hwit⟩
        · rw [hz2, hv]
          exact hvpos
        · rw [← hwit, hv]
          exact hlt _ hpos (by omega)
      rw [if_pos hgt, hv]
    · have hind := ih hmk (fun q hq hqm => hle q hq (by omega))
      have hngt : ¬ d (m + 1) > (scanMax d m).2 := by
        rw [hind]
        exact not_lt.mpr (hle (m + 1) (by omega) (Nat.le_refl _))
      rw [if_neg hngt, hind]

/-- Douglas-Peucker never lengthens its input. -/
theorem douglasPeuckerFuel_length_le (fuel : ℕ) :
    ∀ points epsilon, (douglasPeuckerFuel fuel points epsilon).length ≤ points.length := by
  induction fuel with
  | zero => intro points epsilon; exact Nat.le_refl _
  | succ fuel ih =>
    intro points epsilon
    unfold douglasPeuckerFuel
    dsimp only
    split_ifs with h1 h2
    · exact Nat.le_refl _
    · have hidx := (scanMax_spec (fun i => perpendicularDistance (pget points i)
        (pget points 0) (pget points (points.length - 1))) (points.length - 1 - 1)).2.1
      have hl := ih (points.take ((scanMax (fun i => perpendicularDistance (pget points i)
        (pget points 0) (pget points (points.length - 1))) (points.length - 1 - 1)).1 + 1))
        epsilon
      have hr := ih (points.drop ((scanMax (fun i => perpendicularDistance (pget points i)
        (pget points 0) (pget points (points.length - 1))) (points.length - 1 - 1)).1))
        epsilon
      rw [List.length_append, List.length_dropLast]
      rw [List.length_take] at hl
      rw [List.length_drop] at hr
      omega
    · rw [List.length_cons, List.length_cons, List.length_nil]
      omega

/-- Douglas-Peucker keeps at least two points of an input with two. -/
theorem douglasPeuckerFuel_length_ge (fuel : ℕ) :
    ∀ points epsilon, 2 ≤ points.length →
      2 ≤ (douglasPeuckerFuel fuel points epsilon).length := by
  induction fuel with
  | zero => intro points epsilon h; exact h
  | succ fuel ih =>
    intro points epsilon h
    unfold douglasPeuckerFuel
    dsimp only
    split_ifs with h1 h2
    · exact h
    · have hidx := (scanMax_spec (fun i => perpendicularDistance (pget points i)
        (pget points 0) (pget points (points.length - 1))) (points.length - 1 - 1)).2.1
      have hr := ih (points.drop ((scanMax (fun i => perpendicularDistance (pget points i)
        (pget points 0) (pget points (points.length - 1))) (points.length - 1 - 1)).1))
        epsilon (by rw [List.length_drop]; omega)
      rw [List.length_append]
      omega
    · rw [List.length_cons, List.length_cons, List.length_nil]

/-- C5 amended: for every polygon and every tolerance epsilon ≥ 0, the
simplified polygon has at most as many vertices as the original; a polygon
with at most 3 vertices is returned unchanged; and a closed polygon (first
vertex equal to last within the closing tolerance) with at least 4 vertices
keeps at least 3 (indeed 4) vertices.  An OPEN polygon with at least 4
vertices may be reduced to 2 vertices (see the counterexample), so the
unconditional at-least-3 guarantee of the claim fails. -/
theorem simplifyPolygon_counts (polygon : Polygon) (epsilon : ℝ) (heps : 0 ≤ epsilon) :
    (SimplifyPolygon polygon epsilon).Vertices.length ≤ polygon.Vertices.length ∧
    (polygon.Vertices.length ≤ 3 → SimplifyPolygon polygon epsilon = polygon) ∧
    (4 ≤ polygon.Vertices.length → IsClosedPoly polygon →
      3 ≤ (SimplifyPolygon polygon epsilon).Vertices.length) := by
  unfold SimplifyPolygon
  dsimp only
  split_ifs with h1 h2 h3 h4
  · exact ⟨Nat.le_refl _, fun _ => rfl, fun h4 _ => by omega⟩
  · have hinlen : (polygon.Vertices.take (polygon.Vertices.length - 1) ++
        [pget (polygon.Vertices.take (polygon.Vertices.length - 1)) 0]).length =
        polygon.Vertices.length := by
      rw [List.length_append, List.length_take]
      simp only [List.length_cons, List.length_nil]
      omega
    have hup := douglasPeuckerFuel_length_le (polygon.Vertices.take
      (polygon.Vertices.length - 1) ++ [pget (polygon.Vertices.take
      (polygon.Vertices.length - 1)) 0]).length (polygon.Vertices.take
      (polygon.Vertices.length - 1) ++ [pget (polygon.Vertices.take
      (polygon.Vertices.length - 1)) 0]) epsilon
    refine ⟨?_, fun hc => absurd hc h1, fun _ _ => ?_⟩
    · simp only [List.length_append, List.length_dropLast, List.length_cons, List.length_nil]
      unfold douglasPeucker at h4 ⊢
      rw [List.length_dropLast] at h4
      omega
    · simp only [List.length_append, List.length_dropLast, List.length_cons, List.length_nil]
      unfold douglasPeucker at h4 ⊢
      rw [List.length_dropLast] at h4
      omega
  · exact ⟨Nat.le_refl _, fun hc => absurd hc h1, fun h4 _ => by omega⟩
  · have hge := douglasPeuckerFuel_length_ge (polygon.Vertices.take
      (polygon.Vertices.length - 1) ++ [pget (polygon.Vertices.take
      (polygon.Vertices.length - 1)) 0]).length (polygon.Vertices.take
      (polygon.Vertices.length - 1) ++ [pget (polygon.Vertices.take
      (polygon.Vertices.length - 1)) 0]) epsilon
      (by
        rw [List.length_append, List.length_take]
        simp only [List.length_cons, List.length_nil]
        omega)
    unfold douglasPeucker at h3
    omega
  · have hup := douglasPeuckerFuel_length_le polygon.Vertices.length
      polygon.Vertices epsilon
    refine ⟨?_, fun hc => absurd hc h1, fun _ hc => absurd hc h2⟩
    unfold douglasPeucker
    exact hup

/-- Witness for C5 amended at a triangle with epsilon 0. -/
theorem simplifyPolygon_counts_witness :
    (SimplifyPolygon ⟨[⟨0, 0⟩, ⟨1, 0⟩, ⟨0, 1⟩]⟩ 0).Vertices.length ≤ 3 ∧
    SimplifyPolygon ⟨[⟨0, 0⟩, ⟨1, 0⟩, ⟨0, 1⟩]⟩ 0 = ⟨[⟨0, 0⟩, ⟨1, 0⟩, ⟨0, 1⟩]⟩ :=
  ⟨(simplifyPolygon_counts ⟨[⟨0, 0⟩, ⟨1, 0⟩, ⟨0, 1⟩]⟩ 0 (le_refl 0)).1,
   (simplifyPolygon_counts ⟨[⟨0, 0⟩, ⟨1, 0⟩, ⟨0, 1⟩]⟩ 0 (le_refl 0)).2.1 (by simp)⟩

/-- A point of the x-axis is at perpendicular distance zero from a
nondegenerate chord of the x-axis. -/
theorem perpendicularDistance_horiz (b a c : ℚ) (hac : a ≠ c) :
    perpendicularDistance ⟨b, 0⟩ ⟨a, 0⟩ ⟨c, 0⟩ = 0 := by
  have hdxne : ((c : ℝ) - (a : ℝ)) ≠ 0 := by
    rw [sub_ne_zero]
    intro hh
    exact hac (by exact_mod_cast hh.symm)
  have h2 : |((c : ℝ) - (a : ℝ))| ≠ 0 := abs_ne_zero.mpr hdxne
  unfold perpendicularDistance
  dsimp only
  norm_num
  rw [if_neg hdxne, if_neg hdxne]
  simp only [Real.sqrt_mul_self_eq_abs]
  rw [abs_eq_zero]
  field_simp
  ring

/-- C5 counterexample: the OPEN polygon with the 4 collinear vertices
(0,0), (1,0), (2,0), (3,0) is simplified (at epsilon = 0) to just its 2
endpoints, refuting the claim that every at-least-4-vertex polygon keeps
at least 3 vertices. -/
theorem simplifyPolygon_open_collapse_counterexample :
    polyC5.Vertices.length = 4 ∧ ¬ IsClosedPoly polyC5 ∧
    (SimplifyPolygon polyC5 0).Vertices.length = 2 := by
  have hnc : ¬ IsClosedPoly polyC5 := by
    unfold IsClosedPoly polyC5 closeThreshold pget
    norm_num
  refine ⟨rfl, hnc, ?_⟩
  have hdp : douglasPeucker polyC5.Vertices 0 = [⟨0, 0⟩, ⟨3, 0⟩] := by
    show douglasPeuckerFuel (3 + 1) polyC5.Vertices 0 = _
    unfold douglasPeuckerFuel
    dsimp only
    rw [if_neg (by norm_num [polyC5] : ¬ (polyC5.Vertices.length ≤ 2))]
    have hval := (scanMax_spec (fun i => perpendicularDistance (pget polyC5.Vertices i)
      (pget polyC5.Vertices 0) (pget polyC5.Vertices (polyC5.Vertices.length - 1)))
      (polyC5.Vertices.length - 1 - 1)).2.2.1
    have hd : ∀ i, 1 ≤ i → i ≤ polyC5.Vertices.length - 1 - 1 →
        perpendicularDistance (pget polyC5.Vertices i) (pget polyC5.Vertices 0)
          (pget polyC5.Vertices (polyC5.Vertices.length - 1)) = 0 := by
      intro i h1 h2
      have : i = 1 ∨ i = 2 := by
        simp only [polyC5, List.length_cons, List.length_nil] at h2
        omega
      rcases this with rfl | rfl
      · show perpendicularDistance ⟨1, 0⟩ ⟨0, 0⟩ ⟨3, 0⟩ = 0
        exact perpendicularDistance_horiz 1 0 3 (by norm_num)
      · show perpendicularDistance ⟨2, 0⟩ ⟨0, 0⟩ ⟨3, 0⟩ = 0
        exact perpendicularDistance_horiz 2 0 3 (by norm_num)
    have hzero : (scanMax (fun i => perpendicularDistance (pget polyC5.Vertices i)
        (pget polyC5.Vertices 0) (pget polyC5.Vertices (polyC5.Vertices.length - 1)))
        (polyC5.Vertices.length - 1 - 1)).2 = 0 := by
      rcases hval with ⟨_, hv⟩ | ⟨hge, hv⟩
      · exact hv
      · have hle := (scanMax_spec (fun i => perpendicularDistance (pget polyC5.Vertices i)
          (pget polyC5.Vertices 0) (pget polyC5.Vertices (polyC5.Vertices.length - 1)))
          (polyC5.Vertices.length - 1 - 1)).2.1
        rw [← hv]
        exact hd _ hge hle
    rw [if_neg (by rw [hzero]; norm_num)]
    rfl
  show (SimplifyPolygon polyC5 0).Vertices.length = 2
  unfold SimplifyPolygon
  rw [if_neg (by norm_num [polyC5] : ¬ (polyC5.Vertices.length ≤ 3)), if_neg hnc]
  rw [hdp]
  rfl

/-- The perpendicular distance of the chord start from its own chord is zero. -/
theorem perpendicularDistance_self (p q : Point) : perpendicularDistance p p q = 0 := by
  unfold perpendicularDistance
  simp

/-- The perpendicular distance of the chord end from the chord is zero, in both
the normalised and the degenerate branch. -/
theorem perpendicularDistance_lineEnd (p q : Point) : perpendicularDistance q p q = 0 := by
  unfold perpendicularDistance
  dsimp only
  set A : ℝ := ((q.x - p.x : ℚ) : ℝ) with hA
  set B : ℝ := ((q.y - p.y : ℚ) : ℝ) with hB
  by_cases hmag : Real.sqrt (A * A + B * B) > 0
  · rw [if_pos hmag, if_pos hmag]
    have hs : Real.sqrt (A * A + B * B) * Real.sqrt (A * A + B * B) = A * A + B * B :=
      Real.mul_self_sqrt (add_nonneg (mul_self_nonneg _) (mul_self_nonneg _))
    have hne : Real.sqrt (A * A + B * B) ≠ 0 := ne_of_gt hmag
    have hax : A - (A / Real.sqrt (A * A + B * B) * A + B / Real.sqrt (A * A + B * B) * B) *
        (A / Real.sqrt (A * A + B * B)) = 0 := by
      field_simp
    have hay : B - (A / Real.sqrt (A * A + B * B) * A + B / Real.sqrt (A * A + B * B) * B) *
        (B / Real.sqrt (A * A + B * B)) = 0 := by
      field_simp
    rw [hax, hay]
    simp
  · rw [if_neg hmag, if_neg hmag]
    have h0 : Real.sqrt (A * A + B * B) = 0 := by
      have := Real.sqrt_nonneg (A * A + B * B)
      push_neg at hmag
      linarith
    have hsum : A * A + B * B = 0 :=
      (Real.sqrt_eq_zero (add_nonneg (mul_self_nonneg _) (mul_self_nonneg _))).mp h0
    have hx : A = 0 := by nlinarith [mul_self_nonneg A, mul_self_nonneg B]
    have hy : B = 0 := by nlinarith [mul_self_nonneg A, mul_self_nonneg B]
    rw [hx, hy]
    simp

/-- A known head determines the slice read at index 0. -/
theorem pget_of_head (l : List Point) (a : Point) (h : l.head? = some a) : pget l 0 = a := by
  cases l with
  | nil => simp at h
  | cons b t =>
    simp only [List.head?_cons, Option.some.injEq] at h
    simp [pget, h]

/-- A known last element determines the slice read at the last index. -/
theorem pget_of_getLast (l : List Point) (a : Point) (h : l.getLast? = some a) :
    pget l (l.length - 1) = a := by
  rw [pget, List.getD_eq_getElem?_getD, ← List.getLast?_eq_getElem?, h]
  rfl

/-- Dropping the last element of a list of length at least two keeps the head. -/
theorem head_dropLast (l : List Point) (h : 2 ≤ l.length) :
    l.dropLast.head? = l.head? := by
  match l, h with
  | a :: b :: t, _ => rfl

/-- A nonempty prefix keeps the head. -/
theorem head_take (l : List Point) (n : ℕ) (h : 1 ≤ n) :
    (l.take n).head? = l.head? := by
  cases l with
  | nil => simp
  | cons a t =>
    cases n with
    | zero => omega
    | succ m => rfl

/-- The head of a dropped list is the element at the drop index. -/
theorem head_drop (l : List Point) (i : ℕ) : (l.drop i).head? = l[i]? := by
  rw [List.head?_eq_getElem?, List.getElem?_drop, Nat.add_zero]

/-- Dropping a proper prefix keeps the last element. -/
theorem getLast_drop (l : List Point) (i : ℕ) (h : i < l.length) :
    (l.drop i).getLast? = l.getLast? := by
  rw [List.getLast?_eq_getElem?, List.getLast?_eq_getElem?, List.length_drop,
    List.getElem?_drop]
  congr 1
  omega

/-- The last element of a nonempty prefix is the element before the cut. -/
theorem getLast_take (l : List Point) (n : ℕ) (h1 : 1 ≤ n) (h2 : n ≤ l.length) :
    (l.take n).getLast? = l[n - 1]? := by
  rw [List.getLast?_eq_getElem?, List.length_take, Nat.min_eq_left h2]
  rw [List.getElem?_take, if_pos (by omega : n - 1 < n)]

/-- Members of a prefix are slice reads at indices below the cut. -/
theorem mem_take_pget (l : List Point) (n : ℕ) (x : Point) (h : x ∈ l.take n) :
    ∃ j, j < n ∧ j < l.length ∧ pget l j = x := by
  obtain ⟨k, hk, hkx⟩ := List.getElem_of_mem h
  rw [List.length_take] at hk
  refine ⟨k, by omega, by omega, ?_⟩
  rw [List.getElem_take] at hkx
  rw [pget]
  exact (List.getD_eq_getElem l ⟨0, 0⟩ (show k < l.length by omega)).trans hkx

/-- Members of a suffix are slice reads at indices from the drop point on. -/
theorem mem_drop_pget (l : List Point) (i : ℕ) (x : Point) (h : x ∈ l.drop i) :
    ∃ j, i ≤ j ∧ j < l.length ∧ pget l j = x := by
  obtain ⟨k, hk, hkx⟩ := List.getElem_of_mem h
  rw [List.length_drop] at hk
  refine ⟨i + k, by omega, by omega, ?_⟩
  rw [List.getElem_drop] at hkx
  rw [pget]
  exact (List.getD_eq_getElem l ⟨0, 0⟩ (show i + k < l.length by omega)).trans hkx

/-- Douglas-Peucker returns inputs of at most two points unchanged, whatever
the fuel. -/
theorem dpF_base (pts : List Point) (epsilon : ℝ) (h : pts.length ≤ 2) :
    ∀ fuel, douglasPeuckerFuel fuel pts epsilon = pts := by
  intro fuel
  cases fuel with
  | zero => rfl
  | succ f =>
    unfold douglasPeuckerFuel
    dsimp only
    rw [if_pos h]

/-- Any two sufficient fuels give the same Douglas-Peucker result (the Go
recursion depends only on the points once epsilon is nonnegative). -/
theorem dpF_fuel_eq (epsilon : ℝ) (heps : 0 ≤ epsilon) :
    ∀ n, ∀ pts : List Point, ∀ f₁ f₂ : ℕ, pts.length ≤ n + 2 → pts.length ≤ f₁ →
      pts.length ≤ f₂ →
      douglasPeuckerFuel f₁ pts epsilon = douglasPeuckerFuel f₂ pts epsilon := by
  intro n
  induction n with
  | zero =>
    intro pts f₁ f₂ hn h1 h2
    rw [dpF_base pts epsilon hn, dpF_base pts epsilon hn]
  | succ n ih =>
    intro pts f₁ f₂ hn h1 h2
    by_cases hlen : pts.length ≤ 2
    · rw [dpF_base pts epsilon hlen, dpF_base pts epsilon hlen]
    · push_neg at hlen
      obtain ⟨a, rfl⟩ : ∃ a, f₁ = a + 1 := ⟨f₁ - 1, by omega⟩
      obtain ⟨b, rfl⟩ : ∃ b, f₂ = b + 1 := ⟨f₂ - 1, by omega⟩
      unfold douglasPeuckerFuel
      dsimp only
      rw [if_neg (show ¬ pts.length ≤ 2 by omega), if_neg (show ¬ pts.length ≤ 2 by omega)]
      set sc := scanMax (fun i => perpendicularDistance (pget pts i) (pget pts 0)
        (pget pts (pts.length - 1))) (pts.length - 1 - 1) with hsc
      by_cases hc : sc.2 > epsilon
      · rw [if_pos hc, if_pos hc]
        have hspec := scanMax_spec (fun i => perpendicularDistance (pget pts i) (pget pts 0)
          (pget pts (pts.length - 1))) (pts.length - 1 - 1)
        rw [← hsc] at hspec
        have hi1 : 1 ≤ sc.1 := by
          rcases hspec.2.2.1 with ⟨h0, hv⟩ | ⟨hge, _⟩
          · rw [hv] at hc; linarith
          · exact hge
        have hile : sc.1 ≤ pts.length - 2 := by
          have := hspec.2.1
          omega
        have htl : (pts.take (sc.1 + 1)).length = sc.1 + 1 := by
          rw [List.length_take]
          omega
        have hdl : (pts.drop sc.1).length = pts.length - sc.1 := List.length_drop _ _
        rw [ih (pts.take (sc.1 + 1)) a b (by omega) (by omega) (by omega),
          ih (pts.drop sc.1) a b (by omega) (by omega) (by omega)]
      · rw [if_neg hc, if_neg hc]

/-- Sufficient fuel computes douglasPeucker. -/
theorem dp_eq_fuel (pts : List Point) (epsilon : ℝ) (heps : 0 ≤ epsilon) (f : ℕ)
    (hf : pts.length ≤ f) :
    douglasPeuckerFuel f pts epsilon = douglasPeucker pts epsilon := by
  unfold douglasPeucker
  exact dpF_fuel_eq epsilon heps pts.length pts f pts.length (by omega) hf (le_refl _)

/-- douglasPeucker returns inputs of at most two points unchanged. -/
theorem dp_base (pts : List Point) (epsilon : ℝ) (h : pts.length ≤ 2) :
    douglasPeucker pts epsilon = pts := by
  unfold douglasPeucker
  exact dpF_base pts epsilon h _

/-- When no interior point deviates more than epsilon, douglasPeucker keeps
exactly the two endpoints. -/
theorem dp_base2 (pts : List Point) (epsilon : ℝ) (h : 2 < pts.length)
    (hc : ¬ (scanMax (fun i => perpendicularDistance (pget pts i) (pget pts 0)
      (pget pts (pts.length - 1))) (pts.length - 1 - 1)).2 > epsilon) :
    douglasPeucker pts epsilon = [pget pts 0, pget pts (pts.length - 1)] := by
  unfold douglasPeucker
  obtain ⟨m, hm⟩ : ∃ m, pts.length = m + 1 := ⟨pts.length - 1, by omega⟩
  rw [hm]
  unfold douglasPeuckerFuel
  dsimp only
  rw [← hm]
  rw [if_neg (show ¬ pts.length ≤ 2 by omega), if_neg hc]

/-- One unfolding of douglasPeucker in the splitting case, with the recursive
calls again at standard fuel. -/
theorem dp_unfold (pts : List Point) (epsilon : ℝ) (heps : 0 ≤ epsilon) (h : 2 < pts.length)
    (hc : (scanMax (fun i => perpendicularDistance (pget pts i) (pget pts 0)
      (pget pts (pts.length - 1))) (pts.length - 1 - 1)).2 > epsilon) :
    douglasPeucker pts epsilon =
      (douglasPeucker (pts.take ((scanMax (fun i => perpendicularDistance (pget pts i)
        (pget pts 0) (pget pts (pts.length - 1))) (pts.length - 1 - 1)).1 + 1))
        epsilon).dropLast ++
      douglasPeucker (pts.drop ((scanMax (fun i => perpendicularDistance (pget pts i)
        (pget pts 0) (pget pts (pts.length - 1))) (pts.length - 1 - 1)).1)) epsilon := by
  have hspec := scanMax_spec (fun i => perpendicularDistance (pget pts i) (pget pts 0)
    (pget pts (pts.length - 1))) (pts.length - 1 - 1)
  set sc := scanMax (fun i => perpendicularDistance (pget pts i) (pget pts 0)
    (pget pts (pts.length - 1))) (pts.length - 1 - 1) with hsc
  have hi1 : 1 ≤ sc.1 := by
    rcases hspec.2.2.1 with ⟨h0, hv⟩ | ⟨hge, _⟩
    · rw [hv] at hc; linarith
    · exact hge
  have hile : sc.1 ≤ pts.length - 2 := by
    have := hspec.2.1
    omega
  conv_lhs => rw [douglasPeucker]
  obtain ⟨m, hm⟩ : ∃ m, pts.length = m + 1 := ⟨pts.length - 1, by omega⟩
  rw [hm]
  unfold douglasPeuckerFuel
  dsimp only
  rw [← hsc]
  rw [if_neg (show ¬ pts.length ≤ 2 by omega), if_pos hc]
  rw [dp_eq_fuel (pts.take (sc.1 + 1)) epsilon heps m
      (by rw [List.length_take]; omega),
    dp_eq_fuel (pts.drop sc.1) epsilon heps m
      (by rw [List.length_drop]; omega)]

/-- The head of an append with nonempty left part. -/
theorem head_append_left (A B : List Point) (h : A ≠ []) : (A ++ B).head? = A.head? := by
  cases A with
  | nil => exact absurd rfl h
  | cons a t => rfl

/-- The head of a nonempty list as a slice read. -/
theorem head_eq_pget (l : List Point) (h : l ≠ []) : l.head? = some (pget l 0) := by
  cases l with
  | nil => exact absurd rfl h
  | cons a t => rfl

/-- The last element of an append with nonempty right part. -/
theorem getLast_append_right (A B : List Point) (h : B ≠ []) :
    (A ++ B).getLast? = B.getLast? := by
  rw [List.getLast?_eq_head?_reverse, List.getLast?_eq_head?_reverse, List.reverse_append,
    head_append_left]
  simpa using h

/-- The last element of a nonempty list as a slice read. -/
theorem getLast_eq_pget (l : List Point) (h : l ≠ []) :
    l.getLast? = some (pget l (l.length - 1)) := by
  have hlen : 0 < l.length := List.length_pos.mpr h
  rw [List.getLast?_eq_getElem?, pget, List.getD_eq_getElem?_getD,
    List.getElem?_eq_getElem (show l.length - 1 < l.length by omega)]
  rfl

/-- The two endpoints form a sublist of any list of length at least two. -/
theorem endpoints_sublist (l : List Point) (h : 2 ≤ l.length) :
    [pget l 0, pget l (l.length - 1)].Sublist l := by
  cases l with
  | nil => simp at h
  | cons a t =>
    have ht : t ≠ [] := by
      intro hnil
      rw [hnil] at h
      simp at h
    have hlen : 0 < t.length := List.length_pos.mpr ht
    obtain ⟨m, hm⟩ : ∃ m, t.length = m + 1 := ⟨t.length - 1, by omega⟩
    have h1 : pget (a :: t) ((a :: t).length - 1) = pget t m := by
      rw [pget, pget, List.length_cons, Nat.add_sub_cancel, hm]
      rfl
    rw [h1]
    show (a :: [pget t m]).Sublist (a :: t)
    refine List.cons_sublist_cons.mpr (List.singleton_sublist.mpr ?_)
    rw [pget, List.getD_eq_getElem t ⟨0, 0⟩ (show m < t.length by omega)]
    exact t.getElem_mem _

/-- A sublist of u ++ [x] loses nothing but possibly x when its last element is
dropped. -/
theorem sublist_concat_dropLast (l u : List Point) (x : Point) (h : l.Sublist (u ++ [x])) :
    l.dropLast.Sublist u := by
  rcases List.sublist_append_iff.mp h with ⟨p, q, rfl, hp, hq⟩
  rcases List.sublist_singleton.mp hq with rfl | rfl
  · simpa using (List.dropLast_sublist p).trans hp
  · rw [List.dropLast_concat]
    exact hp

/-- douglasPeucker never adds points. -/
theorem dp_length_le (pts : List Point) (epsilon : ℝ) :
    (douglasPeucker pts epsilon).length ≤ pts.length :=
  douglasPeuckerFuel_length_le _ _ _

/-- douglasPeucker keeps at least two points of an input with two. -/
theorem dp_length_ge (pts : List Point) (epsilon : ℝ) (h : 2 ≤ pts.length) :
    2 ≤ (douglasPeucker pts epsilon).length :=
  douglasPeuckerFuel_length_ge _ _ _ h

/-- douglasPeucker preserves the first point. -/
theorem dp_head (epsilon : ℝ) (heps : 0 ≤ epsilon) :
    ∀ n (pts : List Point), pts.length ≤ n + 2 →
      (douglasPeucker pts epsilon).head? = pts.head? := by
  intro n
  induction n with
  | zero =>
    intro pts hn
    rw [dp_base pts epsilon hn]
  | succ n ih =>
    intro pts hn
    by_cases hlen : pts.length ≤ 2
    · rw [dp_base pts epsilon hlen]
    · push_neg at hlen
      have hspec := scanMax_spec (fun i => perpendicularDistance (pget pts i) (pget pts 0)
        (pget pts (pts.length - 1))) (pts.length - 1 - 1)
      set sc := scanMax (fun i => perpendicularDistance (pget pts i) (pget pts 0)
        (pget pts (pts.length - 1))) (pts.length - 1 - 1) with hsc
      by_cases hc : sc.2 > epsilon
      · have hi1 : 1 ≤ sc.1 := by
          rcases hspec.2.2.1 with ⟨h0, hv⟩ | ⟨hge, _⟩
          · rw [hv] at hc; linarith
          · exact hge
        have hile : sc.1 ≤ pts.length - 2 := by
          have := hspec.2.1
          omega
        rw [dp_unfold pts epsilon heps (by omega) hc]
        rw [← hsc]
        have htl : (pts.take (sc.1 + 1)).length = sc.1 + 1 := by
          rw [List.length_take]
          omega
        have hge2 : 2 ≤ (douglasPeucker (pts.take (sc.1 + 1)) epsilon).length :=
          dp_length_ge _ _ (by omega)
        have hdlne : (douglasPeucker (pts.take (sc.1 + 1)) epsilon).dropLast ≠ [] := by
          intro hnil
          have := congrArg List.length hnil
          rw [List.length_dropLast] at this
          simp at this
          omega
        rw [head_append_left _ _ hdlne, head_dropLast _ hge2,
          ih (pts.take (sc.1 + 1)) (by omega), head_take _ _ (by omega)]
      · rw [dp_base2 pts epsilon (by omega) hc]
        rw [head_eq_pget pts (by intro hnil; rw [hnil] at hlen; simp at hlen)]
        rfl

/-- douglasPeucker preserves the last point. -/
theorem dp_last (epsilon : ℝ) (heps : 0 ≤ epsilon) :
    ∀ n (pts : List Point), pts.length ≤ n + 2 →
      (douglasPeucker pts epsilon).getLast? = pts.getLast? := by
  intro n
  induction n with
  | zero =>
    intro pts hn
    rw [dp_base pts epsilon hn]
  | succ n ih =>
    intro pts hn
    by_cases hlen : pts.length ≤ 2
    · rw [dp_base pts epsilon hlen]
    · push_neg at hlen
      have hspec := scanMax_spec (fun i => perpendicularDistance (pget pts i) (pget pts 0)
        (pget pts (pts.length - 1))) (pts.length - 1 - 1)
      set sc := scanMax (fun i => perpendicularDistance (pget pts i) (pget pts 0)
        (pget pts (pts.length - 1))) (pts.length - 1 - 1) with hsc
      by_cases hc : sc.2 > epsilon
      · have hi1 : 1 ≤ sc.1 := by
          rcases hspec.2.2.1 with ⟨h0, hv⟩ | ⟨hge, _⟩
          · rw [hv] at hc; linarith
          · exact hge
        have hile : sc.1 ≤ pts.length - 2 := by
          have := hspec.2.1
          omega
        rw [dp_unfold pts epsilon heps (by omega) hc]
        rw [← hsc]
        have hge2 : 2 ≤ (douglasPeucker (pts.drop sc.1) epsilon).length :=
          dp_length_ge _ _ (by rw [List.length_drop]; omega)
        have hne : douglasPeucker (pts.drop sc.1) epsilon ≠ [] := by
          intro hnil
          rw [hnil] at hge2
          simp at hge2
        rw [getLast_append_right _ _ hne, ih (pts.drop sc.1) (by rw [List.length_drop]; omega),
          getLast_drop _ _ (by omega)]
      · rw [dp_base2 pts epsilon (by omega) hc]
        rw [getLast_eq_pget pts (by intro hnil; rw [hnil] at hlen; simp at hlen)]
        rfl

/-- The douglasPeucker output is a sublist of its input. -/
theorem dp_sublist (epsilon : ℝ) (heps : 0 ≤ epsilon) :
    ∀ n (pts : List Point), pts.length ≤ n + 2 →
      (douglasPeucker pts epsilon).Sublist pts := by
  intro n
  induction n with
  | zero =>
    intro pts hn
    rw [dp_base pts epsilon hn]
  | succ n ih =>
    intro pts hn
    by_cases hlen : pts.length ≤ 2
    · rw [dp_base pts epsilon hlen]
    · push_neg at hlen
      have hspec := scanMax_spec (fun i => perpendicularDistance (pget pts i) (pget pts 0)
        (pget pts (pts.length - 1))) (pts.length - 1 - 1)
      set sc := scanMax (fun i => perpendicularDistance (pget pts i) (pget pts 0)
        (pget pts (pts.length - 1))) (pts.length - 1 - 1) with hsc
      by_cases hc : sc.2 > epsilon
      · have hi1 : 1 ≤ sc.1 := by
          rcases hspec.2.2.1 with ⟨h0, hv⟩ | ⟨hge, _⟩
          · rw [hv] at hc; linarith
          · exact hge
        have hile : sc.1 ≤ pts.length - 2 := by
          have := hspec.2.1
          omega
        rw [dp_unfold pts epsilon heps (by omega) hc]
        rw [← hsc]
        have htake : pts.take (sc.1 + 1) = pts.take sc.1 ++ [pts[sc.1]] := by
          rw [List.take_succ, List.getElem?_eq_getElem (show sc.1 < pts.length by omega)]
          rfl
        have hsubL : (douglasPeucker (pts.take (sc.1 + 1)) epsilon).Sublist
            (pts.take sc.1 ++ [pts[sc.1]]) := by
          rw [← htake]
          exact ih (pts.take (sc.1 + 1)) (by rw [List.length_take]; omega)
        have hL : ((douglasPeucker (pts.take (sc.1 + 1)) epsilon).dropLast).Sublist
            (pts.take sc.1) := sublist_concat_dropLast _ _ _ hsubL
        have hR : (douglasPeucker (pts.drop sc.1) epsilon).Sublist (pts.drop sc.1) :=
          ih (pts.drop sc.1) (by rw [List.length_drop]; omega)
        have := hL.append hR
        rwa [List.take_append_drop] at this
      · rw [dp_base2 pts epsilon (by omega) hc]
        exact endpoints_sublist pts (by omega)

/-- The one-element prefix of a nonempty list. -/
theorem take_one_eq (l : List Point) (h : l ≠ []) : l.take 1 = [pget l 0] := by
  cases l with
  | nil => exact absurd rfl h
  | cons a t => rfl

/-- douglasPeucker is idempotent for a nonnegative tolerance: the kept points
are exactly the endpoints plus recursive split points, every split point of the
output deviates exactly as it did in the input, and every other kept point
deviates strictly less, so the second pass splits at the same places and
discards nothing. -/
theorem dp_idem (epsilon : ℝ) (heps : 0 ≤ epsilon) :
    ∀ n (pts : List Point), pts.length ≤ n + 2 →
      douglasPeucker (douglasPeucker pts epsilon) epsilon = douglasPeucker pts epsilon := by
  intro n
  induction n with
  | zero =>
    intro pts hn
    rw [dp_base pts epsilon hn, dp_base pts epsilon hn]
  | succ n ih =>
    intro pts hn
    by_cases hlen : pts.length ≤ 2
    · rw [dp_base pts epsilon hlen, dp_base pts epsilon hlen]
    · push_neg at hlen
      have hspec := scanMax_spec (fun i => perpendicularDistance (pget pts i) (pget pts 0)
        (pget pts (pts.length - 1))) (pts.length - 1 - 1)
      set sc := scanMax (fun i => perpendicularDistance (pget pts i) (pget pts 0)
        (pget pts (pts.length - 1))) (pts.length - 1 - 1) with hsc
      by_cases hc : sc.2 > epsilon
      · have hi1 : 1 ≤ sc.1 := by
          rcases hspec.2.2.1 with ⟨h0, hv⟩ | ⟨hge, _⟩
          · rw [hv] at hc; linarith
          · exact hge
        have hile : sc.1 ≤ pts.length - 2 := by
          have := hspec.2.1
          omega
        have hvpos : 0 < sc.2 := lt_of_le_of_lt heps hc
        rw [dp_unfold pts epsilon heps (by omega) hc]
        rw [← hsc]
        set L := douglasPeucker (pts.take (sc.1 + 1)) epsilon with hL
        set R := douglasPeucker (pts.drop sc.1) epsilon with hR
        have htl : (pts.take (sc.1 + 1)).length = sc.1 + 1 := by
          rw [List.length_take]
          omega
        have hdl : (pts.drop sc.1).length = pts.length - sc.1 := List.length_drop _ _
        have hL2 : 2 ≤ L.length := by
          rw [hL]
          exact dp_length_ge _ _ (by omega)
        have hR2 : 2 ≤ R.length := by
          rw [hR]
          exact dp_length_ge _ _ (by omega)
        have hAlen : L.dropLast.length = L.length - 1 := List.length_dropLast _
        have hWlen : (L.dropLast ++ R).length = L.length - 1 + R.length := by
          rw [List.length_append, hAlen]
        have hLne : L ≠ [] := by
          intro hnil
          rw [hnil] at hL2
          simp at hL2
        have hRne : R ≠ [] := by
          intro hnil
          rw [hnil] at hR2
          simp at hR2
        have hAne : L.dropLast ≠ [] := by
          intro hnil
          have := congrArg List.length hnil
          rw [hAlen] at this
          simp at this
          omega
        -- the head and last of the combined list are those of pts
        have hLhead : L.head? = pts.head? := by
          rw [hL, dp_head epsilon heps (pts.take (sc.1 + 1)).length _ (by omega),
            head_take _ _ (by omega)]
        have hRhead : R.head? = some (pget pts sc.1) := by
          rw [hR, dp_head epsilon heps (pts.drop sc.1).length _ (by omega), head_drop,
            List.getElem?_eq_getElem (show sc.1 < pts.length by omega)]
          congr 1
          exact (List.getD_eq_getElem pts ⟨0, 0⟩ (show sc.1 < pts.length by omega)).symm
        have hLlast : L.getLast? = some (pget pts sc.1) := by
          rw [hL, dp_last epsilon heps (pts.take (sc.1 + 1)).length _ (by omega),
            getLast_take _ _ (by omega) (by omega), Nat.add_sub_cancel,
            List.getElem?_eq_getElem (show sc.1 < pts.length by omega)]
          congr 1
          exact (List.getD_eq_getElem pts ⟨0, 0⟩ (show sc.1 < pts.length by omega)).symm
        have hRlast : R.getLast? = pts.getLast? := by
          rw [hR, dp_last epsilon heps (pts.drop sc.1).length _ (by omega),
            getLast_drop _ _ (by omega)]
        have hW0 : pget (L.dropLast ++ R) 0 = pget pts 0 := by
          apply pget_of_head
          rw [head_append_left _ _ hAne, head_dropLast _ hL2, hLhead]
          exact head_eq_pget pts (by intro hnil; rw [hnil] at hlen; simp at hlen)
        have hWe : pget (L.dropLast ++ R) ((L.dropLast ++ R).length - 1) =
            pget pts (pts.length - 1) := by
          apply pget_of_getLast
          rw [getLast_append_right _ _ hRne, hRlast]
          exact getLast_eq_pget pts (by intro hnil; rw [hnil] at hlen; simp at hlen)
        -- the split value of pts
        have hval : perpendicularDistance (pget pts sc.1) (pget pts 0)
            (pget pts (pts.length - 1)) = sc.2 := by
          rcases hspec.2.2.1 with ⟨h0, hv⟩ | ⟨_, hv⟩
          · rw [hv] at hc; linarith
          · exact hv
        -- domination of the left part, strictly
        have hML : ∀ x ∈ L.dropLast, perpendicularDistance x (pget pts 0)
            (pget pts (pts.length - 1)) < sc.2 := by
          intro x hx
          have htake : pts.take (sc.1 + 1) = pts.take sc.1 ++ [pget pts sc.1] := by
            rw [List.take_succ, List.getElem?_eq_getElem (show sc.1 < pts.length by omega)]
            rw [pget, List.getD_eq_getElem pts ⟨0, 0⟩ (show sc.1 < pts.length by omega)]
            rfl
          have hsubL : L.Sublist (pts.take sc.1 ++ [pget pts sc.1]) := by
            rw [← htake, hL]
            exact dp_sublist epsilon heps (pts.take (sc.1 + 1)).length _ (by omega)
          have hLdrop : (L.dropLast).Sublist (pts.take sc.1) :=
            sublist_concat_dropLast _ _ _ hsubL
          have hxt : x ∈ pts.take sc.1 := hLdrop.subset hx
          obtain ⟨j, hj1, hj2, hj3⟩ := mem_take_pget pts sc.1 x hxt
          rcases Nat.eq_zero_or_pos j with rfl | hjpos
          · rw [← hj3]
            rw [perpendicularDistance_self]
            exact hvpos
          · rw [← hj3]
            exact hspec.2.2.2.2 j hjpos (by omega)
        -- domination of the right part
        have hMR : ∀ x ∈ R, perpendicularDistance x (pget pts 0)
            (pget pts (pts.length - 1)) ≤ sc.2 := by
          intro x hx
          have hsubR : R.Sublist (pts.drop sc.1) := by
            rw [hR]
            exact dp_sublist epsilon heps (pts.drop sc.1).length _ (by omega)
          have hxt : x ∈ pts.drop sc.1 := hsubR.subset hx
          obtain ⟨j, hj1, hj2, hj3⟩ := mem_drop_pget pts sc.1 x hxt
          rcases Nat.lt_or_ge j (pts.length - 1) with hjlt | hjge
          · rw [← hj3]
            exact hspec.2.2.2.1 j (by omega) (by omega)
          · have hj : j = pts.length - 1 := by omega
            rw [← hj3, hj, perpendicularDistance_lineEnd]
            exact hspec.1
        -- the second-pass scan selects the same split point, with the same value
        have hscanW : scanMax (fun i => perpendicularDistance (pget (L.dropLast ++ R) i)
            (pget (L.dropLast ++ R) 0) (pget (L.dropLast ++ R) ((L.dropLast ++ R).length - 1)))
            ((L.dropLast ++ R).length - 1 - 1) = (L.length - 1, sc.2) := by
          apply scanMax_eq
          · omega
          · omega
          · show perpendicularDistance (pget (L.dropLast ++ R) (L.length - 1)) _ _ = sc.2
            rw [hW0, hWe]
            have : pget (L.dropLast ++ R) (L.length - 1) = pget R 0 := by
              rw [pget, pget, List.getD_append_right _ _ _ _ (by omega)]
              congr 1
              omega
            rw [this, pget_of_head R _ hRhead]
            exact hval
          · exact hvpos
          · intro q hq1 hqk
            show perpendicularDistance (pget (L.dropLast ++ R) q) _ _ < sc.2
            rw [hW0, hWe]
            have hq : pget (L.dropLast ++ R) q = pget (L.dropLast) q := by
              rw [pget, pget, List.getD_append _ _ _ _ (by omega)]
            rw [hq]
            apply hML
            rw [pget, List.getD_eq_getElem _ _ (show q < L.dropLast.length by omega)]
            exact List.getElem_mem _
          · intro q hqk hqm
            show perpendicularDistance (pget (L.dropLast ++ R) q) _ _ ≤ sc.2
            rw [hW0, hWe]
            have hq : pget (L.dropLast ++ R) q = pget R (q - (L.length - 1)) := by
              rw [pget, pget, List.getD_append_right _ _ _ _ (by omega)]
              congr 1
              omega
            rw [hq]
            apply hMR
            rw [pget, List.getD_eq_getElem _ _ (show q - (L.length - 1) < R.length by omega)]
            exact List.getElem_mem _
        -- unfold the second pass and identify the two recursive calls
        rw [dp_unfold (L.dropLast ++ R) epsilon heps (by omega) (by rw [hscanW]; exact hc)]
        rw [hscanW]
        have hWtake : (L.dropLast ++ R).take (L.length - 1 + 1) = L := by
          rw [List.take_append_eq_append_take]
          rw [List.take_of_length_le (show L.dropLast.length ≤ L.length - 1 + 1 by omega)]
          rw [show L.length - 1 + 1 - L.dropLast.length = 1 by omega]
          rw [take_one_eq R hRne]
          have hgl := List.getLast?_eq_getLast L hLne
          rw [hLlast] at hgl
          have hx : pget R 0 = L.getLast hLne := by
            rw [pget_of_head R _ hRhead]
            exact Option.some_inj.mp hgl
          rw [hx, List.dropLast_append_getLast hLne]
        have hWdrop : (L.dropLast ++ R).drop (L.length - 1) = R := by
          rw [← hAlen, List.drop_left]
        rw [hWtake, hWdrop]
        have ihL := ih (pts.take (sc.1 + 1)) (by omega)
        have ihR := ih (pts.drop sc.1) (by omega)
        rw [← hL] at ihL
        rw [← hR] at ihR
        rw [ihL, ihR]
      · rw [dp_base2 pts epsilon (by omega) hc]
        exact dp_base _ _ (by simp)

/-- C6: for every polygon and every tolerance epsilon ≥ 0, SimplifyPolygon is
idempotent: re-simplifying the simplified polygon at the same tolerance returns
it unchanged.  Small polygons and the failed-simplification fallback return the
input itself; the open branch reduces to idempotence of douglasPeucker; the
closed branch re-closes the ring with its own first vertex, which the second
pass strips and re-appends identically. -/
theorem simplifyPolygon_idempotent (polygon : Polygon) (epsilon : ℝ) (heps : 0 ≤ epsilon) :
    SimplifyPolygon (SimplifyPolygon polygon epsilon) epsilon =
      SimplifyPolygon polygon epsilon := by
  by_cases h3 : polygon.Vertices.length ≤ 3
  · have hSP : SimplifyPolygon polygon epsilon = polygon := by
      unfold SimplifyPolygon
      rw [if_pos h3]
    rw [hSP, hSP]
  · push_neg at h3
    by_cases hcl : IsClosedPoly polygon
    · -- closed polygon: strip the closing vertex, simplify, re-close
      have hopenlen : (polygon.Vertices.take (polygon.Vertices.length - 1)).length =
          polygon.Vertices.length - 1 := by
        rw [List.length_take]
        omega
      set openP := polygon.Vertices.take (polygon.Vertices.length - 1) with hopenP
      set inp := openP ++ [pget openP 0] with hinp
      have hinplen : inp.length = polygon.Vertices.length := by
        rw [hinp, List.length_append, hopenlen]
        simp
        omega
      set simplified := douglasPeucker inp epsilon with hsimp
      have hge2 : 2 ≤ simplified.length := by
        rw [hsimp]
        exact dp_length_ge inp epsilon (by omega)
      have hSP : SimplifyPolygon polygon epsilon =
          if 3 ≤ simplified.dropLast.length then
            (⟨simplified.dropLast ++ [pget simplified.dropLast 0]⟩ : Polygon)
          else polygon := by
        unfold SimplifyPolygon
        rw [if_neg (show ¬ polygon.Vertices.length ≤ 3 by omega), if_pos hcl]
        rw [if_pos (show 1 < simplified.length by omega)]
      by_cases hdl3 : 3 ≤ simplified.dropLast.length
      · rw [if_pos hdl3] at hSP
        have hs4 : 4 ≤ simplified.length := by
          have := List.length_dropLast simplified
          omega
        have hopenne : openP ≠ [] := by
          intro h
          have := congrArg List.length h
          rw [hopenlen] at this
          simp at this
          omega
        have hinphead : inp.head? = some (pget openP 0) := by
          rw [hinp, head_append_left _ _ hopenne, head_eq_pget openP hopenne]
        have hinplast : inp.getLast? = some (pget openP 0) := by
          rw [hinp, getLast_append_right _ _ (by simp)]
          rfl
        have hshead : simplified.head? = some (pget openP 0) := by
          rw [hsimp, dp_head epsilon heps inp.length _ (by omega), hinphead]
        have hslast : simplified.getLast? = some (pget openP 0) := by
          rw [hsimp, dp_last epsilon heps inp.length _ (by omega), hinplast]
        have hsne : simplified ≠ [] := by
          intro h
          have := congrArg List.length h
          rw [List.length_nil] at this
          omega
        have hdlhead : pget simplified.dropLast 0 = pget openP 0 :=
          pget_of_head _ _ (by rw [head_dropLast _ (by omega), hshead])
        have hglast : simplified.getLast hsne = pget openP 0 := by
          have h := List.getLast?_eq_getLast simplified hsne
          rw [hslast] at h
          exact (Option.some_inj.mp h).symm
        have hrecl : simplified.dropLast ++ [pget simplified.dropLast 0] = simplified := by
          rw [hdlhead, ← hglast, List.dropLast_append_getLast hsne]
        rw [hSP, hrecl]
        have hQclosed : IsClosedPoly ⟨simplified⟩ := by
          unfold IsClosedPoly
          dsimp only
          rw [pget_of_head _ _ hshead, pget_of_getLast _ _ hslast]
          constructor
          · rw [sub_self, abs_zero]
            norm_num [closeThreshold]
          · rw [sub_self, abs_zero]
            norm_num [closeThreshold]
        have hidem := dp_idem epsilon heps inp.length inp (by omega)
        rw [← hsimp] at hidem
        unfold SimplifyPolygon
        dsimp only
        rw [if_neg (show ¬ simplified.length ≤ 3 by omega), if_pos hQclosed]
        rw [← List.dropLast_eq_take, hrecl, hidem]
        rw [if_pos (show 1 < simplified.length by omega), if_pos hdl3, hrecl]
      · rw [if_neg hdl3] at hSP
        rw [hSP]
        exact hSP
    · -- open polygon: simplify the chain directly
      set R := douglasPeucker polygon.Vertices epsilon with hRdef
      have hSP : SimplifyPolygon polygon epsilon = ⟨R⟩ := by
        unfold SimplifyPolygon
        rw [if_neg (show ¬ polygon.Vertices.length ≤ 3 by omega), if_neg hcl]
      have hR2 : 2 ≤ R.length := by
        rw [hRdef]
        exact dp_length_ge _ _ (by omega)
      have hpne : polygon.Vertices ≠ [] := by
        intro h
        have := congrArg List.length h
        rw [List.length_nil] at this
        omega
      have hR0 : pget R 0 = pget polygon.Vertices 0 :=
        pget_of_head _ _ (by
          rw [hRdef, dp_head epsilon heps polygon.Vertices.length _ (by omega)]
          exact head_eq_pget _ hpne)
      have hRe : pget R (R.length - 1) = pget polygon.Vertices (polygon.Vertices.length - 1) :=
        pget_of_getLast _ _ (by
          rw [hRdef, dp_last epsilon heps polygon.Vertices.length _ (by omega)]
          exact getLast_eq_pget _ hpne)
      rw [hSP]
      by_cases hR3 : R.length ≤ 3
      · unfold SimplifyPolygon
        dsimp only
        rw [if_pos hR3]
      · have hncl2 : ¬ IsClosedPoly ⟨R⟩ := by
          intro hcontr
          apply hcl
          unfold IsClosedPoly at hcontr ⊢
          dsimp only at hcontr
          rw [hR0, hRe] at hcontr
          exact hcontr
        have hidem := dp_idem epsilon heps polygon.Vertices.length polygon.Vertices (by omega)
        rw [← hRdef] at hidem
        unfold SimplifyPolygon
        dsimp only
        rw [if_neg hR3, if_neg hncl2, hidem]

/-- Witness: idempotence instantiated on a concrete triangle at tolerance 0. -/
theorem simplifyPolygon_idempotent_witness :
    (0 : ℝ) ≤ 0 ∧
      SimplifyPolygon (SimplifyPolygon ⟨[⟨0, 0⟩, ⟨1, 0⟩, ⟨0, 1⟩]⟩ 0) 0 =
        SimplifyPolygon ⟨[⟨0, 0⟩, ⟨1, 0⟩, ⟨0, 1⟩]⟩ 0 :=
  ⟨le_refl 0, simplifyPolygon_idempotent ⟨[⟨0, 0⟩, ⟨1, 0⟩, ⟨0, 1⟩]⟩ 0 (le_refl 0)⟩

/-- A walk starts at its start vertex. -/
theorem pathCost_head {g : Graph} {u : ℕ} {p : List ℕ} {c : ℝ}
    (h : PathCost g u p c) : p.head? = some u := by
  cases h <;> rfl

/-- A walk is nonempty. -/
theorem pathCost_ne_nil {g : Graph} {u : ℕ} {p : List ℕ} {c : ℝ}
    (h : PathCost g u p c) : p ≠ [] := by
  intro hnil
  have := pathCost_head h
  rw [hnil] at this
  simp at this

/-- Transport of a walk along an equality of costs. -/
theorem pathCost_congr {g : Graph} {u : ℕ} {p : List ℕ} {c c' : ℝ}
    (h : PathCost g u p c) (hc : c = c') : PathCost g u p c' := hc ▸ h

/-- Extending a walk by one stored edge from its last vertex. -/
theorem pathCost_append_edge {g : Graph} {u z : ℕ} {p : List ℕ} {c : ℝ} {e : Edge}
    (h : PathCost g u p c) (hz : p.getLast? = some z) (he : e ∈ g.edgesOf z) :
    PathCost g u (p ++ [e.To]) (c + e.Cost) := by
  induction h with
  | single v =>
    have hv : z = v := by
      simp only [List.getLast?_singleton, Option.some.injEq] at hz
      exact hz.symm
    subst hv
    exact pathCost_congr (PathCost.cons z [] e 0 he (PathCost.single e.To)) (by ring)
  | cons v rest e' c' hmem hrec ih =>
    have hz' : (e'.To :: rest).getLast? = some z := by
      rw [List.getLast?_cons_cons] at hz
      exact hz
    have htail := ih hz'
    exact pathCost_congr (PathCost.cons v (rest ++ [e.To]) e' (c' + e.Cost) hmem htail)
      (by ring)

/-- A walk is a single vertex or a shorter walk plus one final edge. -/
theorem pathCost_snoc_cases {g : Graph} {u : ℕ} {p : List ℕ} {c : ℝ}
    (h : PathCost g u p c) :
    (p = [u] ∧ c = 0) ∨
      ∃ p' z e d', p = p' ++ [e.To] ∧ PathCost g u p' d' ∧ p'.getLast? = some z ∧
        e ∈ g.edgesOf z ∧ c = d' + e.Cost := by
  induction h with
  | single v => exact Or.inl ⟨rfl, rfl⟩
  | cons v rest e' c' hmem hrec ih =>
    rcases ih with ⟨heq, hc0⟩ | ⟨p', z, e, d', heq, hp', hz, he, hd⟩
    · right
      refine ⟨[v], v, e', 0, ?_, PathCost.single v, rfl, hmem, by rw [hc0]; ring⟩
      rw [heq]
      rfl
    · right
      have hhead := pathCost_head hp'
      rcases p' with _ | ⟨x, p''⟩
      · simp at hhead
      · simp only [List.head?_cons, Option.some.injEq] at hhead
        subst hhead
        refine ⟨v :: e'.To :: p'', z, e, e'.Cost + d', ?_,
          PathCost.cons v p'' e' d' hmem hp', ?_, he, by rw [hd]; ring⟩
        · rw [heq]
          rfl
        · rw [List.getLast?_cons_cons]
          exact hz

/-- Point.Distance as the absolute value of a complex difference. -/
theorem Distance_eq_complex (p q : Point) :
    p.Distance q = Complex.abs (Complex.mk ((p.x : ℝ) - (q.x : ℝ)) ((p.y : ℝ) - (q.y : ℝ))) := by
  unfold Point.Distance
  rw [Complex.abs_apply, Complex.normSq_mk]
  push_cast
  ring_nf

/-- Triangle inequality of the planar Euclidean distance. -/
theorem Distance_triangle (p q r : Point) :
    p.Distance q ≤ p.Distance r + r.Distance q := by
  rw [Distance_eq_complex, Distance_eq_complex, Distance_eq_complex]
  have h1 : (Complex.mk ((p.x : ℝ) - (q.x : ℝ)) ((p.y : ℝ) - (q.y : ℝ))) =
      (Complex.mk ((p.x : ℝ) - (r.x : ℝ)) ((p.y : ℝ) - (r.y : ℝ))) +
      (Complex.mk ((r.x : ℝ) - (q.x : ℝ)) ((r.y : ℝ) - (q.y : ℝ))) := by
    apply Complex.ext <;> simp
  rw [h1]
  exact Complex.abs.add_le _ _

/-- Popping fails exactly on the empty open set. -/
theorem popMin_eq_none {g : Graph} {endPoint : Point} {opn : List ANode} :
    popMin g endPoint opn = none ↔ opn = [] := by
  cases opn with
  | nil => simp [popMin]
  | cons n rest =>
    simp only [iff_false, List.cons_ne_nil]
    intro h
    unfold popMin at h
    cases hrec : popMin g endPoint rest with
    | none => rw [hrec] at h; simp at h
    | some x =>
      obtain ⟨m, rest'⟩ := x
      rw [hrec] at h
      dsimp only at h
      by_cases hlt : nodeF g endPoint m < nodeF g endPoint n
      · rw [if_pos hlt] at h; simp at h
      · rw [if_neg hlt] at h; simp at h

/-- heap.Pop: the popped node together with the rest is a permutation of the
open set, and the popped node has minimal F. -/
theorem popMin_spec (g : Graph) (endPoint : Point) :
    ∀ (opn : List ANode) (cur : ANode) (rest : List ANode),
      popMin g endPoint opn = some (cur, rest) →
      opn.Perm (cur :: rest) ∧ ∀ n ∈ opn, nodeF g endPoint cur ≤ nodeF g endPoint n := by
  intro opn
  induction opn with
  | nil => intro cur rest h; simp [popMin] at h
  | cons n tail ih =>
    intro cur rest h
    unfold popMin at h
    cases hrec : popMin g endPoint tail with
    | none =>
      rw [hrec] at h
      have htail : tail = [] := popMin_eq_none.mp hrec
      simp only [Option.some.injEq, Prod.mk.injEq] at h
      obtain ⟨rfl, rfl⟩ := h
      subst htail
      exact ⟨List.Perm.refl _, by intro m hm; simp at hm; rw [hm]⟩
    | some x =>
      obtain ⟨m, rest'⟩ := x
      rw [hrec] at h
      dsimp only at h
      have ⟨hperm', hmin'⟩ := ih m rest' hrec
      by_cases hlt : nodeF g endPoint m < nodeF g endPoint n
      · rw [if_pos hlt] at h
        simp only [Option.some.injEq, Prod.mk.injEq] at h
        obtain ⟨rfl, rfl⟩ := h
        constructor
        · exact (hperm'.cons n).trans (List.Perm.swap m n rest')
        · intro p hp
          rcases List.mem_cons.mp hp with rfl | hp'
          · exact le_of_lt hlt
          · exact hmin' p hp'
      · rw [if_neg hlt] at h
        simp only [Option.some.injEq, Prod.mk.injEq] at h
        obtain ⟨rfl, rfl⟩ := h
        constructor
        · exact List.Perm.refl _
        · intro p hp
          rcases List.mem_cons.mp hp with rfl | hp'
          · exact le_refl _
          · exact le_trans (not_lt.mp hlt) (hmin' p hp')

/-- One relaxation step keeps open ids distinct and disjoint from closed. -/
theorem relaxEdge_nodup (g : Graph) (cur : ANode) (closed : List ℕ) (opn : List ANode)
    (e : Edge) (hnd : (opn.map ANode.NodeID).Nodup) (hcl : ∀ n ∈ opn, n.NodeID ∉ closed) :
    ((relaxEdge g cur closed opn e).map ANode.NodeID).Nodup ∧
      ∀ n ∈ relaxEdge g cur closed opn e, n.NodeID ∉ closed := by
  unfold relaxEdge
  by_cases hecl : e.To ∈ closed
  · rw [if_pos hecl]
    exact ⟨hnd, hcl⟩
  · rw [if_neg hecl]
    dsimp only
    cases hfind : opn.find? (fun n => n.NodeID == e.To) with
    | none =>
      dsimp only
      constructor
      · rw [List.map_append, List.nodup_append]
        refine ⟨hnd, by simp, ?_⟩
        intro a ha hb
        simp only [List.map_cons, List.map_nil, List.mem_singleton] at hb
        obtain ⟨n, hn, hnid⟩ := List.mem_map.mp ha
        have := List.find?_eq_none.mp hfind n hn
        simp only [beq_iff_eq] at this
        exact this (by rw [hnid, hb])
      · intro n hn
        rcases List.mem_append.mp hn with h | h
        · exact hcl n h
        · simp only [List.mem_singleton] at h
          rw [h]
          exact hecl
    | some n₀ =>
      dsimp only
      by_cases himp : cur.G + e.Cost < n₀.G
      · rw [if_pos himp]
        have hids : ((opn.map (fun m => if m.NodeID == e.To then
            (⟨e.To, cur.G + e.Cost, cur.path ++ [e.To]⟩ : ANode) else m)).map ANode.NodeID) =
            opn.map ANode.NodeID := by
          rw [List.map_map]
          apply List.map_congr_left
          intro m _
          by_cases hm : m.NodeID = e.To
          · simp [Function.comp, hm]
          · simp [Function.comp, hm]
        constructor
        · rw [hids]
          exact hnd
        · intro n hn
          obtain ⟨m, hm, hmn⟩ := List.mem_map.mp hn
          by_cases hmid : m.NodeID = e.To
          · rw [← hmn]
            simp only [hmid, beq_self_eq_true, if_pos]
            exact hecl
          · rw [← hmn]
            simp only [beq_iff_eq, hmid, if_neg, if_false]
            exact hcl m hm
      · rw [if_neg himp]
        exact ⟨hnd, hcl⟩

/-- One relaxation step keeps every open node on a real walk of cost G ending
at its id. -/
theorem relaxEdge_B (g : Graph) (startIdx : ℕ) (cur : ANode) (closed : List ℕ)
    (opn : List ANode) (e : Edge)
    (hcur : PathCost g startIdx cur.path cur.G ∧ cur.path.getLast? = some cur.NodeID)
    (he : e ∈ g.edgesOf cur.NodeID)
    (hB : ∀ n ∈ opn, PathCost g startIdx n.path n.G ∧ n.path.getLast? = some n.NodeID) :
    ∀ n ∈ relaxEdge g cur closed opn e,
      PathCost g startIdx n.path n.G ∧ n.path.getLast? = some n.NodeID := by
  have hnew : PathCost g startIdx (cur.path ++ [e.To]) (cur.G + e.Cost) ∧
      (cur.path ++ [e.To]).getLast? = some e.To :=
    ⟨pathCost_append_edge hcur.1 hcur.2 he, List.getLast?_concat _⟩
  unfold relaxEdge
  by_cases hecl : e.To ∈ closed
  · rw [if_pos hecl]
    exact hB
  · rw [if_neg hecl]
    dsimp only
    cases hfind : opn.find? (fun n => n.NodeID == e.To) with
    | none =>
      dsimp only
      intro n hn
      rcases List.mem_append.mp hn with h | h
      · exact hB n h
      · simp only [List.mem_singleton] at h
        rw [h]
        exact hnew
    | some n₀ =>
      dsimp only
      by_cases himp : cur.G + e.Cost < n₀.G
      · rw [if_pos himp]
        intro n hn
        obtain ⟨m, hm, hmn⟩ := List.mem_map.mp hn
        by_cases hmid : m.NodeID = e.To
        · rw [← hmn]
          simp only [hmid, beq_self_eq_true, if_pos]
          exact hnew
        · rw [← hmn]
          simp only [beq_iff_eq, hmid, if_neg, if_false]
          exact hB m hm
      · rw [if_neg himp]
        exact hB

/-- One relaxation step never raises the recorded cost of an open id. -/
theorem relaxEdge_cov (g : Graph) (cur : ANode) (closed : List ℕ) (opn : List ANode)
    (e : Edge) (x : ℕ) (b : ℝ) (hnd : (opn.map ANode.NodeID).Nodup)
    (hcov : ∃ n ∈ opn, n.NodeID = x ∧ n.G ≤ b) :
    ∃ n ∈ relaxEdge g cur closed opn e, n.NodeID = x ∧ n.G ≤ b := by
  obtain ⟨n, hn, hid, hgb⟩ := hcov
  unfold relaxEdge
  by_cases hecl : e.To ∈ closed
  · rw [if_pos hecl]
    exact ⟨n, hn, hid, hgb⟩
  · rw [if_neg hecl]
    dsimp only
    cases hfind : opn.find? (fun n => n.NodeID == e.To) with
    | none => exact ⟨n, List.mem_append.mpr (Or.inl hn), hid, hgb⟩
    | some n₀ =>
      dsimp only
      by_cases himp : cur.G + e.Cost < n₀.G
      · rw [if_pos himp]
        by_cases hxe : x = e.To
        · have hn₀mem := List.mem_of_find?_eq_some hfind
          have hn₀id : n₀.NodeID = e.To := by
            have := List.find?_some hfind
            simpa using this
          have hnn₀ : n = n₀ :=
            List.inj_on_of_nodup_map hnd hn hn₀mem (by rw [hid, hxe, hn₀id])
          have happ : (fun m => if m.NodeID == e.To then
              (⟨e.To, cur.G + e.Cost, cur.path ++ [e.To]⟩ : ANode) else m) n =
              ⟨e.To, cur.G + e.Cost, cur.path ++ [e.To]⟩ := by
            simp [hid, hxe]
          have hmem := List.mem_map_of_mem (fun m => if m.NodeID == e.To then
            (⟨e.To, cur.G + e.Cost, cur.path ++ [e.To]⟩ : ANode) else m) hn
          rw [happ] at hmem
          refine ⟨⟨e.To, cur.G + e.Cost, cur.path ++ [e.To]⟩, hmem, hxe.symm, ?_⟩
          exact le_of_lt (lt_of_lt_of_le himp (hnn₀ ▸ hgb))
        · have happ : (fun m => if m.NodeID == e.To then
              (⟨e.To, cur.G + e.Cost, cur.path ++ [e.To]⟩ : ANode) else m) n = n := by
            simp only [beq_iff_eq, hid]
            rw [if_neg hxe]
          have hmem := List.mem_map_of_mem (fun m => if m.NodeID == e.To then
            (⟨e.To, cur.G + e.Cost, cur.path ++ [e.To]⟩ : ANode) else m) hn
          rw [happ] at hmem
          exact ⟨n, hmem, hid, hgb⟩
      · rw [if_neg himp]
        exact ⟨n, hn, hid, hgb⟩

/-- After relaxing an edge, its target is closed or open at a cost at most
G(cur) plus the edge cost. -/
theorem relaxEdge_processed (g : Graph) (cur : ANode) (closed : List ℕ) (opn : List ANode)
    (e : Edge) :
    e.To ∈ closed ∨
      ∃ n ∈ relaxEdge g cur closed opn e, n.NodeID = e.To ∧ n.G ≤ cur.G + e.Cost := by
  unfold relaxEdge
  by_cases hecl : e.To ∈ closed
  · exact Or.inl hecl
  · right
    rw [if_neg hecl]
    dsimp only
    cases hfind : opn.find? (fun n => n.NodeID == e.To) with
    | none =>
      dsimp only
      exact ⟨⟨e.To, cur.G + e.Cost, cur.path ++ [e.To]⟩,
        List.mem_append.mpr (Or.inr (List.mem_singleton.mpr rfl)), rfl, le_refl _⟩
    | some n₀ =>
      dsimp only
      have hn₀mem := List.mem_of_find?_eq_some hfind
      have hn₀id : n₀.NodeID = e.To := by
        have := List.find?_some hfind
        simpa using this
      by_cases himp : cur.G + e.Cost < n₀.G
      · rw [if_pos himp]
        have happ : (fun m => if m.NodeID == e.To then
            (⟨e.To, cur.G + e.Cost, cur.path ++ [e.To]⟩ : ANode) else m) n₀ =
            ⟨e.To, cur.G + e.Cost, cur.path ++ [e.To]⟩ := by
          simp [hn₀id]
        have hmem := List.mem_map_of_mem (fun m => if m.NodeID == e.To then
          (⟨e.To, cur.G + e.Cost, cur.path ++ [e.To]⟩ : ANode) else m) hn₀mem
        rw [happ] at hmem
        exact ⟨⟨e.To, cur.G + e.Cost, cur.path ++ [e.To]⟩, hmem, rfl, le_refl _⟩
      · rw [if_neg himp]
        exact ⟨n₀, hn₀mem, hn₀id, not_lt.mp himp⟩

/-- The neighbour loop keeps open ids distinct and disjoint from closed. -/
theorem foldl_relax_nodup (g : Graph) (cur : ANode) (closed : List ℕ) :
    ∀ (es : List Edge) (opn : List ANode), (opn.map ANode.NodeID).Nodup →
      (∀ n ∈ opn, n.NodeID ∉ closed) →
      ((es.foldl (relaxEdge g cur closed) opn).map ANode.NodeID).Nodup ∧
        ∀ n ∈ es.foldl (relaxEdge g cur closed) opn, n.NodeID ∉ closed := by
  intro es
  induction es with
  | nil => intro opn h1 h2; exact ⟨h1, h2⟩
  | cons e es ih =>
    intro opn h1 h2
    rw [List.foldl_cons]
    obtain ⟨h1', h2'⟩ := relaxEdge_nodup g cur closed opn e h1 h2
    exact ih _ h1' h2'

/-- The neighbour loop keeps every open node on a real walk of cost G. -/
theorem foldl_relax_B (g : Graph) (startIdx : ℕ) (cur : ANode) (closed : List ℕ)
    (hcur : PathCost g startIdx cur.path cur.G ∧ cur.path.getLast? = some cur.NodeID) :
    ∀ (es : List Edge) (opn : List ANode), (∀ e ∈ es, e ∈ g.edgesOf cur.NodeID) →
      (∀ n ∈ opn, PathCost g startIdx n.path n.G ∧ n.path.getLast? = some n.NodeID) →
      ∀ n ∈ es.foldl (relaxEdge g cur closed) opn,
        PathCost g startIdx n.path n.G ∧ n.path.getLast? = some n.NodeID := by
  intro es
  induction es with
  | nil => intro opn _ hB; exact hB
  | cons e es ih =>
    intro opn hes hB
    rw [List.foldl_cons]
    exact ih _ (fun e' he' => hes e' (List.mem_cons_of_mem _ he'))
      (relaxEdge_B g startIdx cur closed opn e hcur (hes e (List.mem_cons_self _ _)) hB)

/-- The neighbour loop never raises the recorded cost of an open id. -/
theorem foldl_relax_cov (g : Graph) (cur : ANode) (closed : List ℕ) (x : ℕ) (b : ℝ) :
    ∀ (es : List Edge) (opn : List ANode), (opn.map ANode.NodeID).Nodup →
      (∀ n ∈ opn, n.NodeID ∉ closed) →
      (∃ n ∈ opn, n.NodeID = x ∧ n.G ≤ b) →
      ∃ n ∈ es.foldl (relaxEdge g cur closed) opn, n.NodeID = x ∧ n.G ≤ b := by
  intro es
  induction es with
  | nil => intro opn _ _ hcov; exact hcov
  | cons e es ih =>
    intro opn h1 h2 hcov
    rw [List.foldl_cons]
    obtain ⟨h1', h2'⟩ := relaxEdge_nodup g cur closed opn e h1 h2
    exact ih _ h1' h2' (relaxEdge_cov g cur closed opn e x b h1 hcov)

/-- After the neighbour loop, every neighbour of the expanded node is closed
or open at a cost at most G(cur) plus the edge cost. -/
theorem foldl_relax_processed (g : Graph) (cur : ANode) (closed : List ℕ) :
    ∀ (es : List Edge) (opn : List ANode), (opn.map ANode.NodeID).Nodup →
      (∀ n ∈ opn, n.NodeID ∉ closed) →
      ∀ e ∈ es, e.To ∈ closed ∨
        ∃ n ∈ es.foldl (relaxEdge g cur closed) opn, n.NodeID = e.To ∧
          n.G ≤ cur.G + e.Cost := by
  intro es
  induction es with
  | nil => intro opn _ _ e he; simp at he
  | cons e' es ih =>
    intro opn h1 h2 e he
    rw [List.foldl_cons]
    obtain ⟨h1', h2'⟩ := relaxEdge_nodup g cur closed opn e' h1 h2
    rcases List.mem_cons.mp he with rfl | he'
    · rcases relaxEdge_processed g cur closed opn e with hecl | hcov
      · exact Or.inl hecl
      · exact Or.inr (foldl_relax_cov g cur closed e.To (cur.G + e.Cost) es _ h1' h2' hcov)
    · exact ih _ h1' h2' e he'

/-- Frontier cut: under the A* loop invariants (closed costs are lower bounds
on every walk cost, edges of closed nodes are relaxed, the start is covered),
every walk to a non-closed vertex w is dominated: some open node has
F at most the walk cost plus the heuristic of w.  Uses consistency of the
heuristic along the walk. -/
theorem astar_cut (g : Graph) (endPoint : Point) (startIdx : ℕ)
    (closed : List ℕ) (opn : List ANode) (gfin : ℕ → ℝ)
    (hcons : ∀ u, ∀ e ∈ g.edgesOf u,
      nodeH g endPoint u ≤ e.Cost + nodeH g endPoint e.To)
    (hD : ∀ z ∈ closed, ∀ q d, PathCost g startIdx q d → q.getLast? = some z → gfin z ≤ d)
    (hG : ∀ z ∈ closed, ∀ e ∈ g.edgesOf z, e.To ∈ closed ∨
      ∃ n ∈ opn, n.NodeID = e.To ∧ n.G ≤ gfin z + e.Cost)
    (hH : startIdx ∈ closed ∨ ∃ n ∈ opn, n.NodeID = startIdx ∧ n.G ≤ 0) :
    ∀ (m : ℕ) (q : List ℕ) (d : ℝ) (w : ℕ), q.length ≤ m → PathCost g startIdx q d →
      q.getLast? = some w → w ∉ closed →
      ∃ n ∈ opn, nodeF g endPoint n ≤ d + nodeH g endPoint w := by
  intro m
  induction m with
  | zero =>
    intro q d w hlen hq _ _
    exact absurd (List.length_eq_zero.mp (Nat.le_zero.mp hlen)) (pathCost_ne_nil hq)
  | succ m ih =>
    intro q d w hlen hq hlast hw
    rcases pathCost_snoc_cases hq with ⟨rfl, rfl⟩ | ⟨p', z, e, d', rfl, hp', hz, he, rfl⟩
    · have hws : w = startIdx := by
        simp only [List.getLast?_singleton, Option.some.injEq] at hlast
        exact hlast.symm
      subst hws
      rcases hH with hc | ⟨n, hn, hid, hg⟩
      · exact absurd hc hw
      · refine ⟨n, hn, ?_⟩
        unfold nodeF
        rw [hid]
        linarith
    · have hwe : w = e.To := by
        rw [List.getLast?_concat] at hlast
        exact (Option.some_inj.mp hlast).symm
      subst hwe
      by_cases hzc : z ∈ closed
      · have hgfz : gfin z ≤ d' := hD z hzc p' d' hp' hz
        rcases hG z hzc e he with hec | ⟨n, hn, hid, hg⟩
        · exact absurd hec hw
        · refine ⟨n, hn, ?_⟩
          unfold nodeF
          rw [hid]
          linarith
      · have hlen' : p'.length ≤ m := by
          rw [List.length_append] at hlen
          simp only [List.length_singleton] at hlen
          omega
        obtain ⟨n, hn, hf⟩ := ih p' d' z hlen' hp' hz hzc
        have hcz := hcons z e he
        exact ⟨n, hn, by linarith⟩

/-- The A* loop, started in any state satisfying the invariants, returns on
success the point sequence of a real walk from the start whose cost is
minimal among all walks from the start to the end vertex. -/
theorem astarLoop_optimal (g : Graph) (startIdx endIdx : ℕ) (endPoint : Point)
    (hcons : ∀ u, ∀ e ∈ g.edgesOf u,
      nodeH g endPoint u ≤ e.Cost + nodeH g endPoint e.To) :
    ∀ (fuel : ℕ) (opn : List ANode) (closed : List ℕ) (gfin : ℕ → ℝ),
      (opn.map ANode.NodeID).Nodup →
      (∀ n ∈ opn, n.NodeID ∉ closed) →
      (∀ n ∈ opn, PathCost g startIdx n.path n.G ∧ n.path.getLast? = some n.NodeID) →
      (∀ z ∈ closed, ∀ q d, PathCost g startIdx q d → q.getLast? = some z → gfin z ≤ d) →
      (∀ z ∈ closed, ∀ e ∈ g.edgesOf z, e.To ∈ closed ∨
        ∃ n ∈ opn, n.NodeID = e.To ∧ n.G ≤ gfin z + e.Cost) →
      (startIdx ∈ closed ∨ ∃ n ∈ opn, n.NodeID = startIdx ∧ n.G ≤ 0) →
      (astarLoop g endIdx endPoint fuel opn closed).2 = true →
      ∃ ids c, (astarLoop g endIdx endPoint fuel opn closed).1 = ids.map g.nodePoint ∧
        PathCost g startIdx ids c ∧ ids.getLast? = some endIdx ∧
        ∀ q d, PathCost g startIdx q d → q.getLast? = some endIdx → c ≤ d := by
  intro fuel
  induction fuel with
  | zero =>
    intro opn closed gfin _ _ _ _ _ _ hsucc
    simp [astarLoop] at hsucc
  | succ fuel ih =>
    intro opn closed gfin hA hA2 hB hD hG hH hsucc
    unfold astarLoop at hsucc ⊢
    cases hpop : popMin g endPoint opn with
    | none =>
      rw [hpop] at hsucc
      simp at hsucc
    | some pr =>
      obtain ⟨cur, rest⟩ := pr
      rw [hpop] at hsucc
      dsimp only at hsucc ⊢
      obtain ⟨hperm, hmin⟩ := popMin_spec g endPoint opn cur rest hpop
      have hcurmem : cur ∈ opn := hperm.symm.subset (List.mem_cons_self _ _)
      have hcurB := hB cur hcurmem
      by_cases hend : cur.NodeID = endIdx
      · rw [if_pos hend] at hsucc ⊢
        refine ⟨cur.path, cur.G, rfl, hcurB.1, by rw [hcurB.2, hend], ?_⟩
        intro q d hq hqlast
        have hwnc : endIdx ∉ closed := hend ▸ hA2 cur hcurmem
        obtain ⟨n, hn, hf⟩ := astar_cut g endPoint startIdx closed opn gfin hcons hD hG hH
          q.length q d endIdx (le_refl _) hq hqlast hwnc
        have hfc := hmin n hn
        unfold nodeF at hfc hf
        rw [hend] at hfc
        linarith
      · rw [if_neg hend] at hsucc ⊢
        have hpermids := hperm.map ANode.NodeID
        have hndcr : ((cur :: rest).map ANode.NodeID).Nodup := hpermids.nodup_iff.mp hA
        have hndrest : (rest.map ANode.NodeID).Nodup := (List.nodup_cons.mp hndcr).2
        have hcurnr : cur.NodeID ∉ rest.map ANode.NodeID := (List.nodup_cons.mp hndcr).1
        have hrest_sub : ∀ n ∈ rest, n ∈ opn :=
          fun n hn => hperm.symm.subset (List.mem_cons_of_mem _ hn)
        have hA2' : ∀ n ∈ rest, n.NodeID ∉ cur.NodeID :: closed := by
          intro n hn
          rw [List.mem_cons]
          rintro (heq | hmem)
          · exact hcurnr (heq ▸ List.mem_map_of_mem ANode.NodeID hn)
          · exact hA2 n (hrest_sub n hn) hmem
        obtain ⟨hA', hA2''⟩ := foldl_relax_nodup g cur (cur.NodeID :: closed)
          (g.edgesOf cur.NodeID) rest hndrest hA2'
        have hB' := foldl_relax_B g startIdx cur (cur.NodeID :: closed) hcurB
          (g.edgesOf cur.NodeID) rest (fun e he => he)
          (fun n hn => hB n (hrest_sub n hn))
        have hcurnc : cur.NodeID ∉ closed := hA2 cur hcurmem
        have hcuropt : ∀ q d, PathCost g startIdx q d → q.getLast? = some cur.NodeID →
            cur.G ≤ d := by
          intro q d hq hql
          obtain ⟨n, hn, hf⟩ := astar_cut g endPoint startIdx closed opn gfin hcons hD hG hH
            q.length q d cur.NodeID (le_refl _) hq hql hcurnc
          have hfc := hmin n hn
          unfold nodeF at hfc hf
          linarith
        have hD' : ∀ z ∈ cur.NodeID :: closed, ∀ q d, PathCost g startIdx q d →
            q.getLast? = some z →
            (fun y => if y = cur.NodeID then cur.G else gfin y) z ≤ d := by
          intro z hz q d hq hql
          dsimp only
          rcases List.mem_cons.mp hz with rfl | hmem
          · rw [if_pos rfl]
            exact hcuropt q d hq hql
          · have hne : z ≠ cur.NodeID := fun h => hcurnc (h ▸ hmem)
            rw [if_neg hne]
            exact hD z hmem q d hq hql
        have hG' : ∀ z ∈ cur.NodeID :: closed, ∀ e ∈ g.edgesOf z,
            e.To ∈ cur.NodeID :: closed ∨
            ∃ n ∈ (g.edgesOf cur.NodeID).foldl (relaxEdge g cur (cur.NodeID :: closed)) rest,
              n.NodeID = e.To ∧
              n.G ≤ (fun y => if y = cur.NodeID then cur.G else gfin y) z + e.Cost := by
          intro z hz e he
          dsimp only
          rcases List.mem_cons.mp hz with rfl | hmem
          · rw [if_pos rfl]
            exact foldl_relax_processed g cur (cur.NodeID :: closed) (g.edgesOf cur.NodeID)
              rest hndrest hA2' e he
          · have hne : z ≠ cur.NodeID := fun h => hcurnc (h ▸ hmem)
            rw [if_neg hne]
            rcases hG z hmem e he with hec | ⟨n, hn, hid, hg⟩
            · exact Or.inl (List.mem_cons_of_mem _ hec)
            · rcases List.mem_cons.mp (hperm.subset hn) with rfl | hnr
              · exact Or.inl (List.mem_cons.mpr (Or.inl hid.symm))
              · exact Or.inr (foldl_relax_cov g cur (cur.NodeID :: closed) e.To
                  (gfin z + e.Cost) (g.edgesOf cur.NodeID) rest hndrest hA2'
                  ⟨n, hnr, hid, hg⟩)
        have hH' : startIdx ∈ cur.NodeID :: closed ∨
            ∃ n ∈ (g.edgesOf cur.NodeID).foldl (relaxEdge g cur (cur.NodeID :: closed)) rest,
              n.NodeID = startIdx ∧ n.G ≤ 0 := by
          rcases hH with hc | ⟨n, hn, hid, hg⟩
          · exact Or.inl (List.mem_cons_of_mem _ hc)
          · rcases List.mem_cons.mp (hperm.subset hn) with rfl | hnr
            · exact Or.inl (List.mem_cons.mpr (Or.inl hid.symm))
            · exact Or.inr (foldl_relax_cov g cur (cur.NodeID :: closed) startIdx 0
                (g.edgesOf cur.NodeID) rest hndrest hA2' ⟨n, hnr, hid, hg⟩)
        exact ih _ _ _ hA' hA2'' hB' hD' hG' hH' hsucc


/-- C1: on a graph with a symmetric edge relation whose edge costs are the
planar Euclidean distances of the endpoints, with start and end ids present,
a successful AStarPathOnGraph returns the point sequence of a walk from the
start vertex to the end vertex following stored graph edges, whose total
stored cost is minimal among all such walks. -/
theorem astar_optimal (g : Graph) (startIdx endIdx : ℕ)
    (hsym : ∀ u v, (∃ e ∈ g.edgesOf u, e.To = v) → ∃ e ∈ g.edgesOf v, e.To = u)
    (hcost : ∀ u, ∀ e ∈ g.edgesOf u, e.Cost = (g.nodePoint u).Distance (g.nodePoint e.To))
    (hstart : startIdx ∈ g.Nodes.map Prod.fst)
    (hend : endIdx ∈ g.Nodes.map Prod.fst)
    (hsucc : (AStarPathOnGraph (some g) startIdx endIdx).2 = true) :
    ∃ ids c, (AStarPathOnGraph (some g) startIdx endIdx).1 = ids.map g.nodePoint ∧
      PathCost g startIdx ids c ∧ ids.head? = some startIdx ∧
      ids.getLast? = some endIdx ∧
      ∀ q d, PathCost g startIdx q d → q.getLast? = some endIdx → c ≤ d := by
  have hne : ¬ g.Nodes.length = 0 := by
    intro h
    rw [List.length_eq_zero] at h
    rw [h] at hstart
    simp at hstart
  have hcons : ∀ u, ∀ e ∈ g.edgesOf u, nodeH g (g.nodePoint endIdx) u ≤
      e.Cost + nodeH g (g.nodePoint endIdx) e.To := by
    intro u e he
    rw [hcost u e he]
    unfold nodeH
    exact Distance_triangle (g.nodePoint u) (g.nodePoint endIdx) (g.nodePoint e.To)
  unfold AStarPathOnGraph at hsucc ⊢
  dsimp only at hsucc ⊢
  rw [if_neg hne] at hsucc ⊢
  obtain ⟨ids, c, h1, h2, h3, h4⟩ := astarLoop_optimal g startIdx endIdx (g.nodePoint endIdx)
    hcons (g.Nodes.length + g.totalEdges + 2) [⟨startIdx, 0, [startIdx]⟩] [] (fun _ => 0)
    (by simp)
    (by simp)
    (by
      intro n hn
      simp only [List.mem_singleton] at hn
      rw [hn]
      exact ⟨PathCost.single startIdx, rfl⟩)
    (by intro z hz; simp at hz)
    (by intro z hz; simp at hz)
    (Or.inr ⟨⟨startIdx, 0, [startIdx]⟩, List.mem_singleton.mpr rfl, rfl, le_refl _⟩)
    hsucc
  exact ⟨ids, c, h1, h2, pathCost_head h2, h3, h4⟩

/-- Witness: the A* optimality theorem instantiated on the one-node graph
with start = end, where the search succeeds immediately. -/
theorem astar_optimal_witness :
    (AStarPathOnGraph (some gC1) 0 0).2 = true ∧
    ∃ ids c, (AStarPathOnGraph (some gC1) 0 0).1 = ids.map gC1.nodePoint ∧
      PathCost gC1 0 ids c ∧ ids.head? = some 0 ∧ ids.getLast? = some 0 ∧
      ∀ q d, PathCost gC1 0 q d → q.getLast? = some 0 → c ≤ d :=
  ⟨rfl, astar_optimal gC1 0 0
    (by rintro u v ⟨e, he, _⟩; exact absurd he (List.not_mem_nil e))
    (by intro u e he; exact absurd he (List.not_mem_nil e))
    (by simp [gC1])
    (by simp [gC1])
    rfl⟩

end BeneDrone
